import Mathlib

/-!
Verification of the ComfyUI caching core (`comfy/caching.py`) and graph
utilities (`comfy/graph_utils.py`) against their natural-language
specification.

The Python code is shallowly embedded: Python values that can appear in
node inputs and cache keys are modelled by the inductive type `PyVal`,
the hashable projections produced by `to_hashable` by `HVal`, and the
mutable cache classes by explicit state-passing functions on structures.

Modelling conventions, fixed once here:
* Python mapping keys are modelled as `String`: every mapping reaching
  this code comes from the JSON wire graph format, whose object keys are
  strings (this also matches `sorted(obj.items())`, which would raise on
  non-comparable mixed-type keys).
* Python floats are modelled as `ℚ`; NaN and infinities are not modelled
  (the only NaN in the code, `Unhashable.value`, never takes part in a
  comparison).
* Object identity of `Unhashable()` instances (and of other unhashable
  objects such as tensors) is modelled by a `tag : ℕ` drawn from an
  explicit allocation counter threaded through `to_hashable`, mirroring
  the freshness of `id()`-based default equality in CPython.
* Python `==` is modelled by `pyEqV` (on source values) and `pyEqH` (on
  projected values), including the numeric cross-type equalities
  `True == 1 == 1.0` and default identity equality for plain objects.
-/

set_option maxHeartbeats 1000000
set_option maxRecDepth 2048

namespace ComfyUI

/-- A Python value as it can appear in a node's inputs: JSON-style
primitives, lists, tuples, string-keyed mappings, plus `frozenset` and
`unhashObj` so that projection results are themselves values (a
`frozenset` is neither a `Mapping` nor a `Sequence` —
`collections.abc.Sequence` requires `__getitem__` — so re-projecting
one falls through to the catch-all branch), and `obj tag` for any other
object (a tensor, a custom class instance, ...) which only has
`id()`-based identity equality. -/
inductive PyVal : Type where
  | int (n : ℤ)
  | float (q : ℚ)
  | str (s : String)
  | bool (b : Bool)
  | none
  | pylist (elems : List PyVal)
  | pytuple (elems : List PyVal)
  | pydict (entries : List (String × PyVal))
  | frozenset (elems : List PyVal)
  | unhashObj (tag : ℕ)
  | obj (tag : ℕ)

/-- The hashable values produced by `to_hashable`: primitives pass
through, mappings and sequences become frozensets (of key/value or
index/element tuples), everything else becomes an `Unhashable` instance,
carrying the identity tag allocated at projection time. -/
inductive HVal : Type where
  | int (n : ℤ)
  | float (q : ℚ)
  | str (s : String)
  | bool (b : Bool)
  | none
  | tup (elems : List HVal)
  | fset (elems : List HVal)
  | unhash (tag : ℕ)

/-- Numeric view of a Python value: `bool` is a subclass of `int` in
Python, so `True == 1 == 1.0`. -/
def HVal.numVal : HVal → Option ℚ
  | .int n => some (n : ℚ)
  | .float q => some q
  | .bool b => some (if b then 1 else 0)
  | _ => Option.none

/-- `v is None` for a projected value. -/
def HVal.isNone : HVal → Bool
  | .none => true
  | _ => false

/-- Python `==` on projected values.  Frozensets compare as CPython
does: equal size and every element of the left operand a member of the
right.  `unhash` values have default object equality: equal only to the
very same instance (same allocation tag). -/
def pyEqH : HVal → HVal → Bool
  | .str s, .str t => s == t
  | .none, .none => true
  | .unhash i, .unhash j => i == j
  | .tup xs, .tup ys =>
    xs.length == ys.length &&
      (xs.zip ys).attach.all (fun p => pyEqH p.1.1 p.1.2)
  | .fset xs, .fset ys =>
    xs.length == ys.length &&
      xs.attach.all (fun x => ys.attach.any (fun y => pyEqH x.1 y.1))
  | a, b =>
    match a.numVal, b.numVal with
    | some p, some q => p == q
    | _, _ => false
termination_by a _ => sizeOf a
decreasing_by
  · obtain ⟨⟨a, b⟩, hp⟩ := p
    have := List.sizeOf_lt_of_mem (List.of_mem_zip hp).1
    simp only [HVal.tup.sizeOf_spec]
    simp only at this
    omega
  · obtain ⟨a, ha⟩ := x
    have := List.sizeOf_lt_of_mem ha
    simp only [HVal.fset.sizeOf_spec]
    simp only at this
    omega

/-- Python `==` on source values.  Lists and tuples never compare equal
to each other; dicts compare by key set and per-key values; `obj`s have
default identity equality. -/
def pyEqV : PyVal → PyVal → Bool
  | .int m, .int n => m == n
  | .int m, .float q => (m : ℚ) == q
  | .int m, .bool b => m == (if b then (1 : ℤ) else 0)
  | .float p, .int n => p == (n : ℚ)
  | .float p, .float q => p == q
  | .float p, .bool b => p == (if b then (1 : ℚ) else 0)
  | .bool a, .int n => (if a then (1 : ℤ) else 0) == n
  | .bool a, .float q => (if a then (1 : ℚ) else 0) == q
  | .bool a, .bool b => a == b
  | .str s, .str t => s == t
  | .none, .none => true
  | .obj i, .obj j => i == j
  | .pylist xs, .pylist ys =>
    xs.length == ys.length &&
      (xs.zip ys).attach.all (fun p => pyEqV p.1.1 p.1.2)
  | .pytuple xs, .pytuple ys =>
    xs.length == ys.length &&
      (xs.zip ys).attach.all (fun p => pyEqV p.1.1 p.1.2)
  | .pydict xs, .pydict ys =>
    xs.length == ys.length &&
      xs.attach.all (fun kv =>
        match ys.find? (fun kw => kw.1 == kv.1.1) with
        | some kw => pyEqV kv.1.2 kw.2
        | Option.none => false)
  | .frozenset xs, .frozenset ys =>
    xs.length == ys.length &&
      xs.attach.all (fun x => ys.attach.any (fun y => pyEqV x.1 y.1))
  | .unhashObj i, .unhashObj j => i == j
  | _, _ => false
termination_by a _ => sizeOf a
decreasing_by
  · obtain ⟨⟨a, b⟩, hp⟩ := p
    have := List.sizeOf_lt_of_mem (List.of_mem_zip hp).1
    simp only [PyVal.pylist.sizeOf_spec]
    simp only at this
    omega
  · obtain ⟨⟨a, b⟩, hp⟩ := p
    have := List.sizeOf_lt_of_mem (List.of_mem_zip hp).1
    simp only [PyVal.pytuple.sizeOf_spec]
    simp only at this
    omega
  · obtain ⟨⟨a, b⟩, hp⟩ := kv
    have := List.sizeOf_lt_of_mem hp
    simp only [PyVal.pydict.sizeOf_spec]
    simp only [Prod.mk.sizeOf_spec] at this ⊢
    omega
  · obtain ⟨a, ha⟩ := x
    have := List.sizeOf_lt_of_mem ha
    simp only [PyVal.frozenset.sizeOf_spec]
    simp only at this
    omega

/-- Code-point comparison of strings, as Python's `<` on `str`. -/
def strLt : List Char → List Char → Bool
  | [], [] => false
  | [], _ :: _ => true
  | _ :: _, [] => false
  | a :: as, b :: bs =>
    if a.toNat < b.toNat then true
    else if b.toNat < a.toNat then false
    else strLt as bs

/-- Stable insertion of an entry into a key-sorted association list
(strictly smaller keys stay in front, so equal keys keep their original
relative order, as Python's stable `sorted`). -/
def insertByKey {β : Type} (x : String × β) : List (String × β) → List (String × β)
  | [] => [x]
  | y :: ys =>
    if strLt y.1.data x.1.data then y :: insertByKey x ys else x :: y :: ys

/-- `sorted(obj.items())` for a string-keyed mapping: stable sort of the
entries by key.  (Python compares the `(key, value)` tuples, but with
the distinct keys of a dict the comparison never reaches the values.) -/
def sortedItems {β : Type} : List (String × β) → List (String × β)
  | [] => []
  | x :: xs => insertByKey x (sortedItems xs)

/-- `sorted(d.keys())` for a string-keyed mapping. -/
def sortedKeys {β : Type} (entries : List (String × β)) : List String :=
  (sortedItems entries).map Prod.fst

/-- Membership test used by frozenset construction and comparison:
CPython tests `is` then `==`; since `pyEqH` is reflexive (no NaN floats
are modelled) the identity short-cut is subsumed. -/
def fsetMem (x : HVal) (ys : List HVal) : Bool :=
  ys.any (fun y => pyEqH x y)

/-- `frozenset(iterable)`: insert elements in order, dropping an element
if an equal one is already present. -/
def fsetOf (l : List HVal) : List HVal :=
  l.foldl (fun acc x => if fsetMem x acc then acc else acc ++ [x]) []

/-- `insertByKey` permutes: the inserted entry joins the list. -/
def insertByKey_perm {β : Type} (x : String × β) :
    ∀ l : List (String × β), (insertByKey x l).Perm (x :: l) := by
  intro l
  induction l with
  | nil => simp [insertByKey]
  | cons y ys ih =>
    simp only [insertByKey]
    by_cases h : strLt y.1.data x.1.data
    · simp only [h, if_true]
      exact (ih.cons y).trans (List.Perm.swap x y ys)
    · simp only [h, if_false]
      exact List.Perm.refl _

/-- `sortedItems` is a permutation of the original entries. -/
def sortedItems_perm {β : Type} :
    ∀ l : List (String × β), (sortedItems l).Perm l := by
  intro l
  induction l with
  | nil => simp [sortedItems]
  | cons x xs ih =>
    simp only [sortedItems]
    exact (insertByKey_perm x (sortedItems xs)).trans (ih.cons x)

/-- Sorting does not change the `sizeOf` measure (used for the
termination of `to_hashable`). -/
def sizeOf_sortedItems (l : List (String × PyVal)) :
    sizeOf (sortedItems l) = sizeOf l :=
  List.Perm.sizeOf_eq_sizeOf (sortedItems_perm l)

mutual

/-- `to_hashable(obj)` from `comfy/caching.py`, with the global object
allocator modelled by the counter `g`: primitives pass through; a
mapping becomes `frozenset((to_hashable(k), to_hashable(v)) for k, v in
sorted(obj.items()))` (keys are strings, so their projection is
themselves); a sequence (list or tuple) becomes
`frozenset(zip(itertools.count(), map(to_hashable, obj)))`; anything
else (a frozenset, an `Unhashable` instance, a tensor, ...) becomes a
fresh `Unhashable()` instance. -/
def to_hashable : PyVal → ℕ → HVal × ℕ
  | .int n, g => (.int n, g)
  | .float q, g => (.float q, g)
  | .str s, g => (.str s, g)
  | .bool b, g => (.bool b, g)
  | .none, g => (.none, g)
  | .pydict entries, g =>
    let r := projItems (sortedItems entries) g
    (.fset (fsetOf r.1), r.2)
  | .pylist xs, g =>
    let r := projSeq xs g
    (.fset (fsetOf ((r.1.enum).map (fun p => HVal.tup [.int p.1, p.2]))), r.2)
  | .pytuple xs, g =>
    let r := projSeq xs g
    (.fset (fsetOf ((r.1.enum).map (fun p => HVal.tup [.int p.1, p.2]))), r.2)
  | .frozenset _, g => (.unhash g, g + 1)
  | .unhashObj _, g => (.unhash g, g + 1)
  | .obj _, g => (.unhash g, g + 1)
termination_by v _ => sizeOf v
decreasing_by
  · have := sizeOf_sortedItems entries
    simp only [PyVal.pydict.sizeOf_spec]
    omega
  · simp only [PyVal.pylist.sizeOf_spec]; omega
  · simp only [PyVal.pytuple.sizeOf_spec]; omega

/-- Projection of sorted mapping items to `(projected key, projected
value)` tuples, threading the allocator. -/
def projItems : List (String × PyVal) → ℕ → List HVal × ℕ
  | [], g => ([], g)
  | (k, v) :: rest, g =>
    let rv := to_hashable v g
    let rr := projItems rest rv.2
    (HVal.tup [.str k, rv.1] :: rr.1, rr.2)
termination_by l _ => sizeOf l
decreasing_by
  · simp only [Prod.mk.sizeOf_spec, List.cons.sizeOf_spec]; omega
  · simp only [List.cons.sizeOf_spec]; omega

/-- Projection of the elements of a sequence in order, threading the
allocator. -/
def projSeq : List PyVal → ℕ → List HVal × ℕ
  | [], g => ([], g)
  | v :: rest, g =>
    let rv := to_hashable v g
    let rr := projSeq rest rv.2
    (rv.1 :: rr.1, rr.2)
termination_by l _ => sizeOf l
decreasing_by
  · simp only [List.cons.sizeOf_spec]; omega
  · simp only [List.cons.sizeOf_spec]; omega

end

/-- Projection results are Python values too: the injection of `HVal`
back into `PyVal` (needed to apply `to_hashable` to its own output). -/
def HVal.toPyVal : HVal → PyVal
  | .int n => .int n
  | .float q => .float q
  | .str s => .str s
  | .bool b => .bool b
  | .none => .none
  | .tup es => .pytuple (es.attach.map (fun e => e.1.toPyVal))
  | .fset es => .frozenset (es.attach.map (fun e => e.1.toPyVal))
  | .unhash t => .unhashObj t
termination_by h => sizeOf h
decreasing_by
  all_goals
    obtain ⟨a, ha⟩ := e
    have := List.sizeOf_lt_of_mem ha
    simp only [HVal.tup.sizeOf_spec, HVal.fset.sizeOf_spec]
    simp only at this
    omega

/-- A value on which `to_hashable` never reaches the catch-all branch,
so its projection allocates no `Unhashable` instance and is a pure
function of the value. -/
def representable : PyVal → Bool
  | .int _ => true
  | .float _ => true
  | .str _ => true
  | .bool _ => true
  | .none => true
  | .pylist xs => xs.attach.all (fun x => representable x.1)
  | .pytuple xs => xs.attach.all (fun x => representable x.1)
  | .pydict es => es.attach.all (fun kv => representable kv.1.2)
  | .frozenset _ => false
  | .unhashObj _ => false
  | .obj _ => false
termination_by v => sizeOf v
decreasing_by
  · obtain ⟨a, ha⟩ := x
    have := List.sizeOf_lt_of_mem ha
    simp only [PyVal.pylist.sizeOf_spec]
    simp only at this
    omega
  · obtain ⟨a, ha⟩ := x
    have := List.sizeOf_lt_of_mem ha
    simp only [PyVal.pytuple.sizeOf_spec]
    simp only at this
    omega
  · obtain ⟨⟨a, b⟩, hp⟩ := kv
    have := List.sizeOf_lt_of_mem hp
    simp only [PyVal.pydict.sizeOf_spec]
    simp only [Prod.mk.sizeOf_spec] at this
    omega

/-- The index-tagged element projections of a sequence: the list
underlying `frozenset(zip(itertools.count(), map(to_hashable, obj)))`
before duplicate elimination (the distinct indices make every element
distinct, so elimination never fires). -/
def taggedProj (xs : List PyVal) (g : ℕ) : List HVal :=
  ((projSeq xs g).1.enum).map (fun p => HVal.tup [.int p.1, p.2])

/-! ### Association-list primitives

Python `dict`s are modelled by insertion-ordered association lists.
Lookup and assignment compare keys with Python `==` (`pyEqH` for
hashable keys, plain `==` for string keys); assignment keeps the stored
key object and the insertion position of an existing entry, and appends
a new entry at the end, as CPython dicts do. -/

/-- `d.get(k, None)` for a string-keyed dict. -/
def lookupStr {β : Type} (l : List (String × β)) (k : String) : Option β :=
  (l.find? (fun p => p.1 == k)).map Prod.snd

/-- `d[k] = v` for a string-keyed dict. -/
def alistSetStr {β : Type} (k : String) (v : β) : List (String × β) → List (String × β)
  | [] => [(k, v)]
  | p :: rest => if p.1 == k then (p.1, v) :: rest else p :: alistSetStr k v rest

/-- `d.get(k, None)` for a dict keyed by hashable Python values. -/
def alistGetH {β : Type} (l : List (HVal × β)) (k : HVal) : Option β :=
  (l.find? (fun p => pyEqH p.1 k)).map Prod.snd

/-- `d[k] = v` for a dict keyed by hashable Python values. -/
def alistSetH {β : Type} (k : HVal) (v : β) : List (HVal × β) → List (HVal × β)
  | [] => [(k, v)]
  | p :: rest => if pyEqH p.1 k then (p.1, v) :: rest else p :: alistSetH k v rest

/-- `del d[k]` for a dict keyed by hashable Python values (the keys
deleted by the cache GC always come from the dict itself). -/
def alistDelH {β : Type} (l : List (HVal × β)) (k : HVal) : List (HVal × β) :=
  l.eraseP (fun p => pyEqH p.1 k)

/-- `k in d` for a dict keyed by hashable Python values. -/
def alistMemH {β : Type} (l : List (HVal × β)) (k : HVal) : Bool :=
  l.any (fun p => pyEqH p.1 k)

/-! ### `comfy/graph_utils.py` -/

/-- `isinstance(v, str)`. -/
def isStrV : PyVal → Bool
  | .str _ => true
  | _ => false

/-- `isinstance(v, int) or isinstance(v, float)`; Python `bool` is a
subclass of `int`, so booleans count as numeric. -/
def isNumV : PyVal → Bool
  | .int _ => true
  | .float _ => true
  | .bool _ => true
  | _ => false

/-- `is_link(obj)` from `comfy/graph_utils.py`: a list of length two
whose first element is a `str` and whose second is an `int` or `float`. -/
def is_link : PyVal → Bool
  | .pylist [a, b] => isStrV a && isNumV b
  | _ => false

/-- Modelled from the spec (§4.6): "a two-element ordered sequence whose
first element is an identifier-like value and second is numeric".  The
two-element ordered sequences among Python values are lists and tuples
(a two-character string's elements are strings, never numeric). -/
def spec_is_link : PyVal → Bool
  | .pylist [a, b] => isStrV a && isNumV b
  | .pytuple [a, b] => isStrV a && isNumV b
  | _ => false

/-- Source id of a link value (`obj[0]`, defined when `is_link obj`). -/
def linkSrc : PyVal → String
  | .pylist (.str s :: _) => s
  | _ => ""

/-- Output slot of a link value (`obj[1]`, defined when `is_link obj`). -/
def linkSock : PyVal → PyVal
  | .pylist [_, b] => b
  | _ => .none

/-- Rename the source id of a link value (applied only under
`is_link`); the statement-side construction of a graph isomorphism. -/
def renameLink (φ : String → String) : PyVal → PyVal
  | .pylist [.str s, b] => .pylist [.str (φ s), b]
  | v => v

/-- A builder-side `Node` from `comfy/graph_utils.py` (the class-type
tag is modelled by its registry name; the display-id override plays no
role in the claims under verification and is omitted). -/
structure BNode where
  id : String
  class_type : String
  inputs : List (String × PyVal)

/-- A `GraphBuilder`: a string prefix, an insertion-ordered map of
prefixed id to node, and a monotonic id counter (`id_gen`). -/
structure GraphBuilder where
  pfx : String
  nodes : List (String × BNode)
  id_gen : ℕ

/-- `GraphBuilder.node(class_type, id=None, **kwargs)`: generate the id
from the counter if absent, prefix it, return the existing node for an
already-used id, else create, store and return a new node. -/
def GraphBuilder.node (g : GraphBuilder) (class_type : String) (id? : Option String)
    (kwargs : List (String × PyVal)) : BNode × GraphBuilder :=
  let gen : String × ℕ :=
    match id? with
    | Option.none => (Nat.repr g.id_gen, g.id_gen + 1)
    | some i => (i, g.id_gen)
  let id := g.pfx ++ gen.1
  match lookupStr g.nodes id with
  | some n => (n, { g with id_gen := gen.2 })
  | Option.none =>
    let n : BNode := ⟨id, class_type, kwargs⟩
    (n, { g with id_gen := gen.2, nodes := g.nodes ++ [(id, n)] })

/-- `GraphBuilder.lookup_node(id)`. -/
def GraphBuilder.lookup_node (g : GraphBuilder) (id : String) : Option BNode :=
  lookupStr g.nodes (g.pfx ++ id)

/-- A node record of the wire graph format (`PromptInput` in
`comfy/types.py`): a class-type tag and named inputs. -/
structure NodeRec where
  class_type : String
  inputs : List (String × PyVal)

/-- Rewrite the source id of a link to `pfx + id` (applied only under
`is_link`). -/
def prefixLink (pfx : String) : PyVal → PyVal
  | .pylist [.str s, b] => .pylist [.str (pfx ++ s), b]
  | v => v

/-- `add_graph_prefix(graph, outputs, prefix)` from
`comfy/graph_utils.py`: rewrite every node id to `prefix + id`, rewrite
the source id of every link input, rewrite link outputs, pass non-link
outputs through. -/
def add_graph_prefix (graph : List (String × NodeRec)) (outputs : List PyVal)
    (pfx : String) : List (String × NodeRec) × List PyVal :=
  ( graph.map (fun p =>
      (pfx ++ p.1,
        { class_type := p.2.class_type,
          inputs := p.2.inputs.map (fun kv =>
            (kv.1, if is_link kv.2 then prefixLink pfx kv.2 else kv.2)) })),
    outputs.map (fun o => if is_link o then prefixLink pfx o else o) )

/-! ### External collaborators of `comfy/caching.py` -/

/-- Modelled from the spec (§6): the dynamic-prompt collaborator
(`comfy/graph.py`, outside the covered sources) is consumed only
through `get_node(id) -> {class_type, inputs}` and
`get_parent_node_id(id) -> id or none`; it is modelled as the data
those two lookups read. -/
structure DynPrompt where
  nodes : List (String × NodeRec)
  parents : List (String × String)

/-- `dynprompt.get_node(node_id)`. -/
def DynPrompt.get_node (dp : DynPrompt) (id : String) : Option NodeRec :=
  lookupStr dp.nodes id

/-- `dynprompt.get_node(node_id)` with the `KeyError` on an unknown id
modelled by an inert default node (no class, no inputs); theorems about
signatures assume the ids they mention are present. -/
def DynPrompt.getNodeD (dp : DynPrompt) (id : String) : NodeRec :=
  (dp.get_node id).getD ⟨"", []⟩

/-- `dynprompt.get_parent_node_id(node_id)`. -/
def DynPrompt.get_parent_node_id (dp : DynPrompt) (id : String) : Option String :=
  lookupStr dp.parents id

/-- A node record with every link input re-pointed through `φ`;
literal inputs and input names are untouched. -/
def renameNode (φ : String → String) (n : NodeRec) : NodeRec :=
  ⟨n.class_type,
   n.inputs.map (fun kv => (kv.1, if is_link kv.2 then renameLink φ kv.2 else kv.2))⟩

/-- The graph isomorphic to `dp` under the node-id map `φ`: same class
types, same input names, same literal input values, same topology, only
the ids changed.  Two graphs are structurally isomorphic exactly when
one is the other's image under an injective `φ`. -/
def renameGraph (φ : String → String) (dp : DynPrompt) : DynPrompt :=
  ⟨dp.nodes.map (fun p => (φ p.1, renameNode φ p.2)),
   dp.parents.map (fun p => (φ p.1, φ p.2))⟩

/-- `dp` with the input `key` of node `m` changed to the value `v\'`
(the statement-side construction for "changing one literal input"):
every other node, input name and value is untouched. -/
def updateInput (dp : DynPrompt) (m key : String) (v2 : PyVal) : DynPrompt :=
  ⟨dp.nodes.map (fun p =>
      (p.1, if p.1 == m
        then ⟨p.2.class_type,
              p.2.inputs.map (fun kv => (kv.1, if kv.1 == key then v2 else kv.2))⟩
        else p.2)),
   dp.parents⟩

/-! ### Cache key sets (`CacheKeySet` and its two variants) -/

/-- The two concrete `CacheKeySet` strategies: `CacheKeySetID` and
`CacheKeySetInputSignature`. -/
inductive KeyVariant : Type where
  | byID
  | byInputSig

/-- `CacheKeySetInputSignature.include_node_id_in_input`, a constant. -/
def include_node_id_in_input : Bool := false

/-- `get_ordered_ancestry_internal`: depth-first walk over the link
inputs of a node in sorted input-name order, appending each newly
discovered ancestor and recursing into it.  The Python recursion
terminates because every recursive call first grows the visited list;
here the nesting depth is paid for by explicit `fuel` (the wrapper
passes more fuel than the walk can consume on a well-formed graph). -/
def get_ordered_ancestry_internal (dp : DynPrompt) :
    ℕ → String → List String → List String
  | 0, _, ancestors => ancestors
  | fuel + 1, node_id, ancestors =>
    let inputs := (dp.getNodeD node_id).inputs
    (sortedKeys inputs).foldl (fun anc key =>
      match lookupStr inputs key with
      | some v =>
        if is_link v then
          let ancestor_id := linkSrc v
          if ancestor_id ∈ anc then anc
          else get_ordered_ancestry_internal dp fuel ancestor_id (anc ++ [ancestor_id])
        else anc
      | Option.none => anc) ancestors

/-- `get_ordered_ancestry`: run the walk from an empty ancestor list
(the order mapping of the source is the index in the returned list). -/
def get_ordered_ancestry (dp : DynPrompt) (node_id : String) : List String :=
  get_ordered_ancestry_internal dp (dp.nodes.length + 2) node_id []

/-- The per-input entry of an immediate signature (the body of its
loop over sorted input names): `(key, ("ANCESTOR", index, socket))` for
a link, `(key, literal)` otherwise, nothing for a vanished key. -/
def entryF (inputs : List (String × PyVal)) (anc_order : List String)
    (key : String) : Option PyVal :=
  match lookupStr inputs key with
  | some v =>
    if is_link v then
      some (.pytuple [.str key,
        .pytuple [.str "ANCESTOR", .int (List.indexOf (linkSrc v) anc_order), linkSock v]])
    else some (.pytuple [.str key, v])
  | Option.none => Option.none

/-- `get_immediate_node_signature`: `[class_type, changed-marker,
(node id when configured or marked NOT_IDEMPOTENT), then one
`(name, literal)` or `(name, ("ANCESTOR", ancestor index, socket))`
entry per input in sorted name order]`.  `not_idempotent ct` models
`hasattr(NODE_CLASS_MAPPINGS[ct], "NOT_IDEMPOTENT") and ...NOT_IDEMPOTENT`. -/
def get_immediate_node_signature (dp : DynPrompt) (not_idempotent : String → Bool)
    (is_changed : String → PyVal) (node_id : String) (anc_order : List String) : PyVal :=
  let node := dp.getNodeD node_id
  let head := [PyVal.str node.class_type, is_changed node_id]
  let head :=
    if include_node_id_in_input || not_idempotent node.class_type
    then head ++ [.str node_id] else head
  .pylist (head ++ (sortedKeys node.inputs).filterMap (fun key =>
    match lookupStr node.inputs key with
    | some v =>
      if is_link v then
        some (.pytuple [.str key,
          .pytuple [.str "ANCESTOR", .int (List.indexOf (linkSrc v) anc_order), linkSock v]])
      else some (.pytuple [.str key, v])
    | Option.none => Option.none))

/-- `get_node_signature`: the node's own immediate signature followed by
each ancestor's, in ancestry order, projected through `to_hashable`. -/
def get_node_signature (dp : DynPrompt) (not_idempotent : String → Bool)
    (is_changed : String → PyVal) (node_id : String) (g : ℕ) : HVal × ℕ :=
  let ancestors := get_ordered_ancestry dp node_id
  to_hashable (.pylist
    (get_immediate_node_signature dp not_idempotent is_changed node_id ancestors ::
      ancestors.map (fun a =>
        get_immediate_node_signature dp not_idempotent is_changed a ancestors))) g

/-- The state of a bound `CacheKeySet`: its strategy, the graph,
"changed" oracle and not-idempotent registry captured at binding time,
and the two derived key maps. -/
structure CacheKeySet where
  variant : KeyVariant
  dynprompt : DynPrompt
  is_changed : String → PyVal
  not_idempotent : String → Bool
  keys : List (String × HVal)
  subcache_keys : List (String × HVal)

/-- `CacheKeySet.get_used_keys()`. -/
def CacheKeySet.get_used_keys (ck : CacheKeySet) : List HVal :=
  ck.keys.map Prod.snd

/-- `CacheKeySet.get_used_subcache_keys()`. -/
def CacheKeySet.get_used_subcache_keys (ck : CacheKeySet) : List HVal :=
  ck.subcache_keys.map Prod.snd

/-- `CacheKeySet.get_data_key(node_id)`; the Python `None` default is
`HVal.none`. -/
def CacheKeySet.get_data_key (ck : CacheKeySet) (node_id : String) : HVal :=
  (lookupStr ck.keys node_id).getD .none

/-- `CacheKeySet.get_subcache_key(node_id)`. -/
def CacheKeySet.get_subcache_key (ck : CacheKeySet) (node_id : String) : HVal :=
  (lookupStr ck.subcache_keys node_id).getD .none

/-- One iteration of `add_keys` for a single id: skip a known id; the
ID variant keys both maps by `(node_id, class_type)`; the
input-signature variant keys data by the structural signature and
subcaches by `(node_id, class_type)`.  Threads the allocation counter
`g`. -/
def CacheKeySet.add_key (ck : CacheKeySet) (nid : String) (g : ℕ) : CacheKeySet × ℕ :=
  if (lookupStr ck.keys nid).isSome then (ck, g)
  else
    let node := ck.dynprompt.getNodeD nid
    let idKey : HVal := .tup [.str nid, .str node.class_type]
    match ck.variant with
    | .byID =>
      ({ ck with keys := alistSetStr nid idKey ck.keys,
                 subcache_keys := alistSetStr nid idKey ck.subcache_keys }, g)
    | .byInputSig =>
      let r := get_node_signature ck.dynprompt ck.not_idempotent ck.is_changed nid g
      ({ ck with keys := alistSetStr nid r.1 ck.keys,
                 subcache_keys := alistSetStr nid idKey ck.subcache_keys }, r.2)

/-- `add_keys(node_ids)`: fold `add_key` over the ids. -/
def CacheKeySet.add_keys (ck : CacheKeySet) (node_ids : List String) (g : ℕ) :
    CacheKeySet × ℕ :=
  node_ids.foldl (fun acc nid => acc.1.add_key nid acc.2) (ck, g)

/-- Construction of a key set (`key_class(dynprompt, node_ids,
is_changed_cache)`): empty maps, then `add_keys(node_ids)`. -/
def mkCacheKeySet (variant : KeyVariant) (dp : DynPrompt) (node_ids : List String)
    (is_changed : String → PyVal) (not_idempotent : String → Bool) (g : ℕ) :
    CacheKeySet × ℕ :=
  CacheKeySet.add_keys ⟨variant, dp, is_changed, not_idempotent, [], []⟩ node_ids g

/-! ### `BasicCache` -/

/-- The non-recursive state of one cache scope.  Before the first
`set_prompt` the Python attributes `dynprompt`/`cache_key_set` are
unset; they are defaulted here and guarded by `initialized`, exactly as
the code guards them. -/
structure CacheState where
  variant : KeyVariant
  initialized : Bool
  dynprompt : DynPrompt
  is_changed : String → PyVal
  cache_key_set : CacheKeySet
  cache : List (HVal × PyVal)

/-- A cache scope: its state plus the map of subcache keys to child
scopes (`BasicCache.subcaches`). -/
inductive BasicCache : Type where
  | mk (st : CacheState) (subcaches : List (HVal × BasicCache))

/-- The non-recursive state of a cache scope. -/
def BasicCache.st : BasicCache → CacheState
  | .mk s _ => s

/-- The child scopes of a cache scope. -/
def BasicCache.subcaches : BasicCache → List (HVal × BasicCache)
  | .mk _ c => c

/-- `BasicCache(key_class)`: fresh, unbound scope. -/
def BasicCache.new (variant : KeyVariant) : BasicCache :=
  .mk ⟨variant, false, ⟨[], []⟩, fun _ => .none,
       ⟨variant, ⟨[], []⟩, fun _ => .none, fun _ => false, [], []⟩, []⟩ []

/-- `set_prompt(dynprompt, node_ids, is_changed_cache)`: bind the scope
to a freshly constructed key set.  The global not-idempotent registry
and the allocation counter are passed explicitly. -/
def BasicCache.set_prompt (c : BasicCache) (dp : DynPrompt) (node_ids : List String)
    (is_changed : String → PyVal) (not_idempotent : String → Bool) (g : ℕ) :
    BasicCache × ℕ :=
  let r := mkCacheKeySet c.st.variant dp node_ids is_changed not_idempotent g
  (.mk { c.st with dynprompt := dp, cache_key_set := r.1,
                   is_changed := is_changed, initialized := true } c.subcaches, r.2)

/-- `_clean_cache()`: collect every cached key not in
`get_used_keys()`, then delete them. -/
def BasicCache.clean_cache (c : BasicCache) : BasicCache :=
  let preserve_keys := c.st.cache_key_set.get_used_keys
  let to_remove := (c.st.cache.map Prod.fst).filter
    (fun k => !(preserve_keys.any (fun p => pyEqH k p)))
  .mk { c.st with cache := to_remove.foldl (fun cc k => alistDelH cc k) c.st.cache }
    c.subcaches

/-- `_clean_subcaches()`: collect every subcache key not in
`get_used_subcache_keys()`, then delete those child scopes. -/
def BasicCache.clean_subcaches (c : BasicCache) : BasicCache :=
  let preserve_subcaches := c.st.cache_key_set.get_used_subcache_keys
  let to_remove := (c.subcaches.map Prod.fst).filter
    (fun k => !(preserve_subcaches.any (fun p => pyEqH k p)))
  .mk c.st (to_remove.foldl (fun cc k => alistDelH cc k) c.subcaches)

/-- `clean_unused()`: `assert self.initialized` (modelled as `Option`),
then clean data entries, then child scopes. -/
def BasicCache.clean_unused (c : BasicCache) : Option BasicCache :=
  if c.st.initialized then some (c.clean_cache.clean_subcaches) else Option.none

/-- `_set_immediate(node_id, value)`: `assert self.initialized`, then
store under the node's data key. -/
def BasicCache.set_immediate (c : BasicCache) (node_id : String) (value : PyVal) :
    Option BasicCache :=
  if c.st.initialized then
    some (.mk { c.st with
      cache := alistSetH (c.st.cache_key_set.get_data_key node_id) value c.st.cache }
      c.subcaches)
  else Option.none

/-- `_get_immediate(node_id)`: `None` when unbound, else
`cache.get(data_key, None)`. -/
def BasicCache.get_immediate (c : BasicCache) (node_id : String) : Option PyVal :=
  if !c.st.initialized then Option.none
  else alistGetH c.st.cache (c.st.cache_key_set.get_data_key node_id)

/-- `_ensure_subcache(node_id, children_ids)`: fetch or create the
child scope under this node's subcache key, rebind it to the current
graph/oracle with `children_ids`, store it back, and return it
alongside the updated parent.  (Python mutates the shared child object;
the write-back makes the sharing explicit.) -/
def BasicCache.ensure_subcache (c : BasicCache) (node_id : String)
    (children_ids : List String) (not_idempotent : String → Bool) (g : ℕ) :
    BasicCache × BasicCache × ℕ :=
  let subcache_key := c.st.cache_key_set.get_subcache_key node_id
  let sub0 := (alistGetH c.subcaches subcache_key).getD (BasicCache.new c.st.variant)
  let r := sub0.set_prompt c.st.dynprompt children_ids c.st.is_changed not_idempotent g
  (.mk c.st (alistSetH subcache_key r.1 c.subcaches), r.1, r.2)

/-- `_get_subcache(node_id)`: the child scope under this node's
subcache key, if any (the `assert self.initialized` of the source is
surfaced by the callers below). -/
def BasicCache.get_subcache (c : BasicCache) (node_id : String) : Option BasicCache :=
  alistGetH c.subcaches (c.st.cache_key_set.get_subcache_key node_id)

/-! ### `HierarchicalCache`

The hierarchical operations resolve the cache scope owning a node id by
walking the external parent chain to the root and then re-descending
the cache tree.  Python mutates the resolved scope in place; the pure
embedding rebuilds the tree along the same path.  `AssertionError`s are
modelled by `Except Unit`. -/

/-- The ancestor chain of a node, nearest parent first (`while
parent_id is not None` in `_get_cache_for`); a cyclic parent map would
make the Python loop spin forever, so the walk carries fuel and the
wrapper passes one step more than there are parent links. -/
def parentChain (dp : DynPrompt) : ℕ → Option String → List String
  | 0, _ => []
  | _, Option.none => []
  | fuel + 1, some pid => pid :: parentChain dp fuel (dp.get_parent_node_id pid)

/-- Descend the cache tree through the given top-down ancestor ids:
`cache = cache._get_subcache(parent_id)` step by step, failing softly
(`.ok none`) on a missing child scope and fatally (`.error`) on the
`assert self.initialized` inside `_get_subcache`. -/
def descendSubcaches : BasicCache → List String → Except Unit (Option BasicCache)
  | c, [] => .ok (some c)
  | c, p :: rest =>
    if !c.st.initialized then .error ()
    else
      match c.get_subcache p with
      | Option.none => .ok Option.none
      | some sub => descendSubcaches sub rest

/-- `_get_cache_for(node_id)`: collect the parent chain of the node,
then walk the cache tree from the root in root-to-leaf order. -/
def HierarchicalCache.get_cache_for (c : BasicCache) (node_id : String) :
    Except Unit (Option BasicCache) :=
  let dp := c.st.dynprompt
  match dp.get_parent_node_id node_id with
  | Option.none => .ok (some c)
  | some pid =>
    let hierarchy := parentChain dp (dp.parents.length + 1) (some pid)
    descendSubcaches c hierarchy.reverse

/-- `HierarchicalCache.get(node_id)`: resolve the owning scope; a
broken path yields `None` (a soft miss), otherwise delegate to
`_get_immediate`. -/
def HierarchicalCache.get (c : BasicCache) (node_id : String) :
    Except Unit (Option PyVal) :=
  match HierarchicalCache.get_cache_for c node_id with
  | .error e => .error e
  | .ok Option.none => .ok Option.none
  | .ok (some owner) => .ok (owner.get_immediate node_id)

/-- Rebuild-the-tree companion of `descendSubcaches`: apply `f` to the
scope at the end of the path and write the result back along the path.
A missing child scope yields `.ok none`; `f` itself may fail (it wraps
the asserting `_set_immediate`). -/
def updateAlongPath (f : BasicCache → Except Unit BasicCache) :
    BasicCache → List String → Except Unit (Option BasicCache)
  | c, [] =>
    match f c with
    | .error e => .error e
    | .ok c' => .ok (some c')
  | c, p :: rest =>
    if !c.st.initialized then .error ()
    else
      match c.get_subcache p with
      | Option.none => .ok Option.none
      | some sub =>
        match updateAlongPath f sub rest with
        | .error e => .error e
        | .ok Option.none => .ok Option.none
        | .ok (some sub') =>
          .ok (some (.mk c.st
            (alistSetH (c.st.cache_key_set.get_subcache_key p) sub' c.subcaches)))

/-- `HierarchicalCache.set(node_id, value)`: resolve the owning scope,
`assert cache is not None` (so a broken path is a fatal error, unlike
`get`), then `_set_immediate` there. -/
def HierarchicalCache.set (c : BasicCache) (node_id : String) (value : PyVal) :
    Except Unit BasicCache :=
  let dp := c.st.dynprompt
  let hierarchy : List String :=
    match dp.get_parent_node_id node_id with
    | Option.none => []
    | some pid => (parentChain dp (dp.parents.length + 1) (some pid)).reverse
  match updateAlongPath (fun owner =>
      match owner.set_immediate node_id value with
      | some owner' => .ok owner'
      | Option.none => .error ()) c hierarchy with
  | .error e => .error e
  | .ok Option.none => .error ()
  | .ok (some c') => .ok c'

/-! ### `LRUCache` (the generational cache) -/

/-- `LRUCache`: a `BasicCache` plus the generation bookkeeping. -/
structure LRUCache where
  basic : BasicCache
  max_size : ℕ
  min_generation : ℕ
  generation : ℕ
  used_generation : List (HVal × ℕ)
  children : List (HVal × List HVal)

/-- `LRUCache(key_class, max_size)`. -/
def LRUCache.new (variant : KeyVariant) (max_size : ℕ) : LRUCache :=
  ⟨BasicCache.new variant, max_size, 0, 0, [], []⟩

/-- `_mark_used(node_id)`: record the current generation for the node's
data key, when the key is known. -/
def LRUCache.mark_used (c : LRUCache) (node_id : String) : LRUCache :=
  let cache_key := c.basic.st.cache_key_set.get_data_key node_id
  if cache_key.isNone then c
  else { c with used_generation := alistSetH cache_key c.generation c.used_generation }

/-- `LRUCache.set_prompt(...)`: bind as `BasicCache.set_prompt`, bump
the generation, and mark every given node id used in the new
generation. -/
def LRUCache.set_prompt (c : LRUCache) (dp : DynPrompt) (node_ids : List String)
    (is_changed : String → PyVal) (not_idempotent : String → Bool) (g : ℕ) :
    LRUCache × ℕ :=
  let r := c.basic.set_prompt dp node_ids is_changed not_idempotent g
  let c := { c with basic := r.1, generation := c.generation + 1 }
  (node_ids.foldl (fun c nid => c.mark_used nid) c, r.2)

/-- The generation an entry was last used in
(`self.used_generation[key]`; a missing entry would be a `KeyError` in
Python and is defaulted to generation `0`, which is unreachable for any
key that went through `set`/`get`/`set_prompt`). -/
def LRUCache.usedGen (c : LRUCache) (k : HVal) : ℕ :=
  (alistGetH c.used_generation k).getD 0

/-- The body of the eviction loop for one evicted key: `del
self.cache[key]; del self.used_generation[key]; if key in
self.children: del self.children[key]`. -/
def LRUCache.evictEntry (c : LRUCache) (k : HVal) : LRUCache :=
  { c with
    basic := .mk { c.basic.st with cache := alistDelH c.basic.st.cache k }
      c.basic.subcaches,
    used_generation := alistDelH c.used_generation k,
    children := if alistMemH c.children k then alistDelH c.children k
                else c.children }

/-- One pass of the `clean_unused` eviction loop body: raise the
minimum retained generation, collect every key whose last-used
generation fell below it, then delete those entries. -/
def LRUCache.evictOnce (c : LRUCache) : LRUCache :=
  let c := { c with min_generation := c.min_generation + 1 }
  let to_remove := (c.basic.st.cache.map Prod.fst).filter
    (fun k => c.usedGen k < c.min_generation)
  to_remove.foldl (fun c k => c.evictEntry k) c

/-- The `while len(self.cache) > self.max_size and self.min_generation
< self.generation` loop; each iteration raises `min_generation`, so
`generation - min_generation` bounds the iteration count and serves as
structural fuel. -/
def LRUCache.evictLoop : LRUCache → ℕ → LRUCache
  | c, 0 => c
  | c, fuel + 1 =>
    if c.basic.st.cache.length > c.max_size && c.min_generation < c.generation then
      LRUCache.evictLoop c.evictOnce fuel
    else c

/-- `LRUCache.clean_unused()`: run the generational eviction loop, then
prune child scopes by exact reachability (`_clean_subcaches`). -/
def LRUCache.clean_unused (c : LRUCache) : LRUCache :=
  let c := c.evictLoop (c.generation - c.min_generation)
  { c with basic := c.basic.clean_subcaches }

/-- `LRUCache.get(node_id)`: mark used, then `_get_immediate`. -/
def LRUCache.get (c : LRUCache) (node_id : String) : LRUCache × Option PyVal :=
  let c := c.mark_used node_id
  (c, c.basic.get_immediate node_id)

/-- `LRUCache.set(node_id, value)`: mark used, then `_set_immediate`
(whose `assert self.initialized` is the `Option`). -/
def LRUCache.set (c : LRUCache) (node_id : String) (value : PyVal) : Option LRUCache :=
  let c := c.mark_used node_id
  (c.basic.set_immediate node_id value).map (fun b => { c with basic := b })

/-- The body of `ensure_subcache_for`'s children loop:
`self._mark_used(child_id);
self.children[cache_key].append(self.cache_key_set.get_data_key(child_id))`. -/
def childStep (K : HVal) (c : LRUCache) (child_id : String) : LRUCache :=
  let c := c.mark_used child_id
  let entry := ((alistGetH c.children K).getD []) ++
    [c.basic.st.cache_key_set.get_data_key child_id]
  { c with children := alistSetH K entry c.children }

/-- `LRUCache.ensure_subcache_for(node_id, children_ids)`: create or
rebind the child scope purely for liveness tracking, add the children
to the top-level key set, mark the node and all children used, record
the children's data keys under the node's data key — and return the
top-level cache itself (`return self`), not the child scope. -/
def LRUCache.ensure_subcache_for (c : LRUCache) (node_id : String)
    (children_ids : List String) (not_idempotent : String → Bool) (g : ℕ) :
    LRUCache × ℕ :=
  let r := c.basic.ensure_subcache node_id children_ids not_idempotent g
  let c := { c with basic := r.1 }
  let r2 := c.basic.st.cache_key_set.add_keys children_ids r.2.2
  let c := { c with basic := .mk { c.basic.st with cache_key_set := r2.1 } c.basic.subcaches }
  let c := c.mark_used node_id
  let cache_key := c.basic.st.cache_key_set.get_data_key node_id
  let c := { c with children := alistSetH cache_key [] c.children }
  let c := children_ids.foldl (childStep cache_key) c
  (c, r2.2)

/-! ### Miscellaneous predicates and helpers used by the theorems -/

/-- The isinstance check of `to_hashable`'s first branch:
`isinstance(obj, (int, float, str, bool, type(None)))`. -/
def is_primitive : PyVal → Bool
  | .int _ => true
  | .float _ => true
  | .str _ => true
  | .bool _ => true
  | .none => true
  | _ => false

/-- Values on which `to_hashable` reaches the catch-all branch at top
level and allocates an `Unhashable` marker. -/
def unrepresentable : PyVal → Bool
  | .frozenset _ => true
  | .unhashObj _ => true
  | .obj _ => true
  | _ => false

/-- Well-formedness of a builder: every stored node's `id` field is the
key it is stored under (maintained by every `GraphBuilder` method). -/
def GraphBuilder.WF (g : GraphBuilder) : Prop :=
  ∀ p ∈ g.nodes, p.2.id = p.1

/-- The keys of a model dict are pairwise `==`-distinct (both ways;
guaranteed for real Python dicts, whose keys are deduplicated by
`==`). -/
def keysDistinct {β : Type} (l : List (HVal × β)) : Prop :=
  l.Pairwise (fun p q => pyEqH p.1 q.1 = false ∧ pyEqH q.1 p.1 = false)

/-- A set of keys on which Python `==` coincides with structural
equality (true of the tuple/frozenset/primitive keys a real run
produces; rules out exotic aliasing between distinct keys). -/
def cleanKeys (K : List HVal) : Prop :=
  ∀ a ∈ K, ∀ b ∈ K, (pyEqH a b = true ↔ a = b)

/-- Well-formedness of a generational cache's bookkeeping dicts: no
duplicate keys, and `==` on all involved keys is structural. -/
def LRUWF (c : LRUCache) : Prop :=
  (c.basic.st.cache.map Prod.fst).Nodup ∧
  (c.used_generation.map Prod.fst).Nodup ∧
  cleanKeys (c.basic.st.cache.map Prod.fst ++ c.used_generation.map Prod.fst)

/-- Decimal digit value of a character (`'0'` has code point 48). -/
def digVal (c : Char) : ℕ := c.toNat - 48

/-- Value of a most-significant-first decimal digit string, with
accumulator (used to show `Nat.repr` is injective, which makes the
builder's generated ids collision-free). -/
def valD : List Char → ℕ → ℕ
  | [], acc => acc
  | c :: cs, acc => valD cs (acc * 10 + digVal c)

/-- A sample graph and cache tree in which node `X`'s parent `P` has no
child scope in the (bound, otherwise empty) root cache. -/
def brokenDP : DynPrompt := ⟨[("X", ⟨"T", []⟩), ("P", ⟨"T", []⟩)], [("X", "P")]⟩

/-- The root cache of the broken-path example: bound (initialized) with
an identity key set over `brokenDP`, no data, no subcaches. -/
def brokenRoot : BasicCache :=
  ((BasicCache.new KeyVariant.byID).set_prompt brokenDP ["X", "P"]
    (fun _ => PyVal.none) (fun _ => false) 0).1

/-- The state of `ensure_subcache_for` after `_ensure_subcache` and
`add_keys` (before the marking phase); spelled out to let the proof
talk about the pipeline stages. -/
def ensureMid (c : LRUCache) (nid : String) (cids : List String) (ni : String → Bool)
    (g : ℕ) : LRUCache :=
  let r := c.basic.ensure_subcache nid cids ni g
  let st2 : CacheState := { r.1.st with cache_key_set := (r.1.st.cache_key_set.add_keys cids r.2.2).1 }
  { c with basic := BasicCache.mk st2 r.1.subcaches }

/-- The marking/recording phase of `ensure_subcache_for`. -/
def ensureTail (c2 : LRUCache) (nid : String) (cids : List String) : LRUCache :=
  let c3 := c2.mark_used nid
  let K := c3.basic.st.cache_key_set.get_data_key nid
  let c4 : LRUCache := { c3 with children := alistSetH K [] c3.children }
  cids.foldl (childStep K) c4

/-- A concrete initialized two-node LRU cache for exercising
`ensure_subcache_for`. -/
def lruC10dp : DynPrompt := ⟨[("N", ⟨"T", []⟩), ("D", ⟨"T", []⟩)], []⟩

/-- The cache itself: ID keys, empty data, generation 1. -/
def lruC10 : LRUCache :=
  ⟨.mk ⟨KeyVariant.byID, true, lruC10dp, fun _ => PyVal.none,
      ⟨KeyVariant.byID, lruC10dp, fun _ => PyVal.none, fun _ => false, [], []⟩, []⟩ [],
    10, 0, 1, [], []⟩

/-- A concrete two-node graph for exercising the input-signature
properties: `B` feeds `A` through a link, and `A` also has the string
literal `"a"` at input `x`. -/
def dpC2 : DynPrompt :=
  ⟨[("A", ⟨"T", [("x", PyVal.str "a"), ("y", PyVal.pylist [PyVal.str "B", PyVal.int 0])]⟩),
    ("B", ⟨"U", []⟩)], []⟩

/-! ## Theorems

General lemmas about the embedding first, then one theorem per claim
of the specification (with counterexamples and witnesses where they
apply). -/

theorem mem_zip_self {α : Type} {p : α × α} {l : List α} (hp : p ∈ l.zip l) :
    p.1 = p.2 ∧ p.1 ∈ l := by
  induction l with
  | nil => simp at hp
  | cons x xs ih =>
    rw [List.zip_cons_cons, List.mem_cons] at hp
    rcases hp with h | h
    · subst h; exact ⟨rfl, List.mem_cons_self _ _⟩
    · exact ⟨(ih h).1, List.mem_cons_of_mem _ (ih h).2⟩

/-- Python `==` as modelled is reflexive (the only non-reflexive Python
equality, `float("nan")`, is not modelled; an `Unhashable` instance
equals itself by identity). -/
theorem pyEqH_refl : ∀ (h : HVal), pyEqH h h = true
  | .int n => by simp [pyEqH, HVal.numVal]
  | .float q => by simp [pyEqH, HVal.numVal]
  | .str s => by simp [pyEqH]
  | .bool b => by simp [pyEqH, HVal.numVal]
  | .none => by simp [pyEqH]
  | .unhash t => by simp [pyEqH]
  | .tup xs => by
    simp only [pyEqH]
    rw [Bool.and_eq_true, List.all_eq_true]
    refine ⟨by simp, ?_⟩
    intro p _
    obtain ⟨⟨x, y⟩, hp⟩ := p
    obtain ⟨h1, h2⟩ := mem_zip_self hp
    dsimp only at h1 h2 ⊢
    subst h1
    exact pyEqH_refl x
  | .fset xs => by
    simp only [pyEqH]
    rw [Bool.and_eq_true, List.all_eq_true]
    refine ⟨by simp, ?_⟩
    intro x _
    rw [List.any_eq_true]
    exact ⟨x, List.mem_attach _ _, pyEqH_refl x.1⟩
termination_by h => sizeOf h
decreasing_by
  · have := List.sizeOf_lt_of_mem h2
    simp only [HVal.tup.sizeOf_spec]
    simp only at this
    omega
  · have := List.sizeOf_lt_of_mem x.2
    simp only [HVal.fset.sizeOf_spec]
    simp only at this
    omega

/-- Projecting an unrepresentable value allocates exactly one fresh
marker. -/
theorem to_hashable_unrep {v : PyVal} (h : unrepresentable v = true) (g : ℕ) :
    to_hashable v g = (.unhash g, g + 1) := by
  cases v <;> simp_all [unrepresentable, to_hashable]

/-- The projection of a representable value is never a marker. -/
theorem to_hashable_rep_ne_unhash {v : PyVal} (h : representable v = true) (g t : ℕ) :
    (to_hashable v g).1 ≠ .unhash t := by
  cases v <;> simp_all [representable, to_hashable]

/-- A marker is `==`-unequal to anything that is not a marker. -/
theorem pyEqH_unhash_ne (i : ℕ) (h : HVal) (hne : ∀ t, h ≠ .unhash t) :
    pyEqH (.unhash i) h = false := by
  cases h <;> simp [pyEqH, HVal.numVal]
  exact absurd rfl (hne _)

/-- C1 (counterexample): the claim "to_hashable(to_hashable(v)) equals
to_hashable(v) for every v" fails at `v = {}`: the first projection is
the empty frozenset, but a frozenset is neither a `Mapping` nor a
`Sequence`, so the second projection replaces it by a fresh
`Unhashable` marker, which is unequal to the frozenset. -/
theorem to_hashable_idempotent_cex :
    (to_hashable (.pydict []) 0).1 = .fset [] ∧
    pyEqH (to_hashable ((to_hashable (.pydict []) 0).1.toPyVal)
        ((to_hashable (.pydict []) 0).2)).1
      ((to_hashable (.pydict []) 0).1) = false := by
  constructor
  · simp [to_hashable, projItems, sortedItems, fsetOf]
  · simp [to_hashable, projItems, sortedItems, fsetOf, HVal.toPyVal, pyEqH, HVal.numVal]

/-- C1 (amended): `to_hashable` is total and every projection is usable
as a map key — storing a value under the projected key and looking it
up with that same key succeeds, for every input value; and the
projection is idempotent on the primitive pass-through values.  Full
idempotence fails (see the counterexample): re-projecting a frozenset
yields a fresh unrepresentable marker. -/
theorem to_hashable_total_prim_idempotent :
    (∀ (v : PyVal) (g : ℕ) (x : PyVal),
      alistGetH [((to_hashable v g).1, x)] ((to_hashable v g).1) = some x) ∧
    (∀ (v : PyVal) (g : ℕ), is_primitive v = true →
      to_hashable ((to_hashable v g).1.toPyVal) ((to_hashable v g).2) =
        to_hashable v g) := by
  constructor
  · intro v g x
    simp [alistGetH, List.find?, pyEqH_refl]
  · intro v g hp
    cases v <;> simp_all [is_primitive, to_hashable, HVal.toPyVal]

/-- Witness for C1's amended theorem at concrete inputs. -/
theorem to_hashable_total_prim_idempotent_witness :
    alistGetH [((to_hashable (.obj 7) 0).1, PyVal.str "v")] ((to_hashable (.obj 7) 0).1)
        = some (PyVal.str "v") ∧
    to_hashable ((to_hashable (.int 3) 5).1.toPyVal) ((to_hashable (.int 3) 5).2) =
      to_hashable (.int 3) 5 :=
  ⟨to_hashable_total_prim_idempotent.left (PyVal.obj 7) 0 (PyVal.str "v"),
   to_hashable_total_prim_idempotent.right (PyVal.int 3) 5 (by simp [is_primitive])⟩

/-- C6 (counterexample): the marker produced for an unrepresentable
value compares EQUAL to itself — CPython's default object equality is
identity, and `Unhashable` defines no `__eq__` (its NaN field is never
compared) — whereas the claim requires `u == u` to be false. -/
theorem unhashable_self_eq_cex :
    pyEqH (to_hashable (.obj 0) 0).1 (to_hashable (.obj 0) 0).1 = true := by
  simp [to_hashable, pyEqH]

/-- C6 (amended): a marker allocated for an unrepresentable value
compares unequal to the marker of any later projection of an
unrepresentable value (so repeated unrepresentable content never
spuriously matches) and to the projection of every representable
value; only the very same marker instance equals itself. -/
theorem unhashable_marker_unequal (v w u : PyVal) (g g2 : ℕ)
    (hv : unrepresentable v = true) (hw : unrepresentable w = true)
    (hu : representable u = true) :
    pyEqH (to_hashable v g).1 (to_hashable w (to_hashable v g).2).1 = false ∧
    pyEqH (to_hashable v g).1 (to_hashable u g2).1 = false ∧
    pyEqH (to_hashable v g).1 (to_hashable v g).1 = true := by
  rw [to_hashable_unrep hv, to_hashable_unrep hw]
  refine ⟨by simp [pyEqH], ?_, by simp [pyEqH]⟩
  exact pyEqH_unhash_ne g _ (to_hashable_rep_ne_unhash hu g2)

/-- Witness for C6's amended theorem at concrete inputs. -/
theorem unhashable_marker_unequal_witness :
    pyEqH (to_hashable (.obj 0) 0).1 (to_hashable (.obj 1) (to_hashable (.obj 0) 0).2).1
        = false ∧
    pyEqH (to_hashable (.obj 0) 0).1 (to_hashable (.int 5) 0).1 = false ∧
    pyEqH (to_hashable (.obj 0) 0).1 (to_hashable (.obj 0) 0).1 = true :=
  unhashable_marker_unequal (.obj 0) (.obj 1) (.int 5) 0 0 rfl rfl
    (by simp [representable])

/-- C7 (counterexample): the tuple `("n1", 0)` is a two-element ordered
sequence whose first element is identifier-like and whose second is
numeric, yet `is_link` rejects it: the code tests `isinstance(obj,
list)` specifically. -/
theorem is_link_cex :
    spec_is_link (.pytuple [.str "n1", .int 0]) = true ∧
    is_link (.pytuple [.str "n1", .int 0]) = false :=
  ⟨rfl, rfl⟩

/-- C7 (amended): `is_link v` holds iff `v` is a two-element LIST whose
first element is a string and whose second is an int or float (a
Python bool passes the int check). -/
theorem is_link_iff (v : PyVal) :
    is_link v = true ↔
      ∃ (s : String) (b : PyVal), v = .pylist [.str s, b] ∧ isNumV b = true := by
  constructor
  · intro h
    match v, h with
    | .pylist [a, b], h =>
      cases a with
      | str s => exact ⟨s, b, rfl, by simpa [is_link, isStrV] using h⟩
      | int n => simp [is_link, isStrV] at h
      | float q => simp [is_link, isStrV] at h
      | bool c => simp [is_link, isStrV] at h
      | none => simp [is_link, isStrV] at h
      | pylist l => simp [is_link, isStrV] at h
      | pytuple l => simp [is_link, isStrV] at h
      | pydict l => simp [is_link, isStrV] at h
      | frozenset l => simp [is_link, isStrV] at h
      | unhashObj t => simp [is_link, isStrV] at h
      | obj t => simp [is_link, isStrV] at h
  · rintro ⟨s, b, rfl, hb⟩
    simp [is_link, isStrV, hb]

/-! ### Injectivity of `Nat.repr` (for the builder's generated ids) -/

theorem toDigitsCore_append (b : ℕ) :
    ∀ (f n : ℕ) (ds : List Char),
      Nat.toDigitsCore b f n ds = Nat.toDigitsCore b f n [] ++ ds := by
  intro f
  induction f with
  | zero => intro n ds; simp [Nat.toDigitsCore]
  | succ f ih =>
    intro n ds
    simp only [Nat.toDigitsCore]
    by_cases h : n / b = 0
    · simp [h]
    · simp only [h, if_false]
      rw [ih (n / b) (Nat.digitChar (n % b) :: ds), ih (n / b) [Nat.digitChar (n % b)]]
      simp

theorem toDigitsCore_fuel (b : ℕ) :
    ∀ (n f1 f2 : ℕ), n < f1 → n < f2 → 2 ≤ b →
      Nat.toDigitsCore b f1 n [] = Nat.toDigitsCore b f2 n []
  | _, 0, _, h1, _, _ => absurd h1 (by omega)
  | _, _ + 1, 0, _, h2, _ => absurd h2 (by omega)
  | n, f1 + 1, f2 + 1, h1, h2, hb => by
    simp only [Nat.toDigitsCore]
    by_cases h : n / b = 0
    · simp [h]
    · simp only [h, if_false]
      rw [toDigitsCore_append b f1, toDigitsCore_append b f2]
      have hn : n ≠ 0 := fun hn => by simp [hn, Nat.zero_div] at h
      have hd : n / b < n := Nat.div_lt_self (Nat.pos_of_ne_zero hn) (by omega)
      rw [toDigitsCore_fuel b (n / b) f1 f2 (by omega) (by omega) hb]
termination_by n _ _ _ _ _ => n

theorem valD_append :
    ∀ (xs ys : List Char) (acc : ℕ), valD (xs ++ ys) acc = valD ys (valD xs acc)
  | [], _, _ => rfl
  | _ :: xs, ys, _ => valD_append xs ys _

theorem digVal_digitChar (m : ℕ) (h : m < 10) : digVal (Nat.digitChar m) = m := by
  interval_cases m <;> decide

theorem toDigitsCore_val :
    ∀ (n f : ℕ), n < f → ∀ (acc : ℕ),
      valD (Nat.toDigitsCore 10 f n []) acc
        = acc * 10 ^ (Nat.toDigitsCore 10 f n []).length + n
  | _, 0, h, _ => absurd h (by omega)
  | n, f + 1, h, acc => by
    simp only [Nat.toDigitsCore]
    by_cases hz : n / 10 = 0
    · have hn : n < 10 := by omega
      have hm : n % 10 = n := Nat.mod_eq_of_lt hn
      simp [hz, valD, digVal_digitChar _ (hm ▸ Nat.mod_lt n (by norm_num)), hm]
    · simp only [hz, if_false]
      rw [toDigitsCore_append]
      rw [valD_append]
      have hnz : n ≠ 0 := fun hn => by simp [hn, Nat.zero_div] at hz
      have hd : n / 10 < n := Nat.div_lt_self (Nat.pos_of_ne_zero hnz) (by norm_num)
      rw [toDigitsCore_val (n / 10) f (by omega) acc]
      have hmod : digVal (Nat.digitChar (n % 10)) = n % 10 :=
        digVal_digitChar _ (Nat.mod_lt n (by norm_num))
      simp only [valD, hmod, List.length_append, List.length_cons, List.length_nil]
      have hpow : 10 ^ ((Nat.toDigitsCore 10 f (n / 10) []).length + (0 + 1)) =
          10 ^ (Nat.toDigitsCore 10 f (n / 10) []).length * 10 := by
        rw [Nat.zero_add, Nat.pow_succ]
      rw [hpow]
      have := Nat.div_add_mod n 10
      ring_nf
      omega
termination_by n _ _ _ => n

/-- `str(n)` is injective: distinct counters yield distinct generated
ids. -/
theorem nat_repr_inj {m n : ℕ} (h : Nat.repr m = Nat.repr n) : m = n := by
  have hd : Nat.toDigitsCore 10 (m + 1) m [] = Nat.toDigitsCore 10 (n + 1) n [] := by
    have := congrArg String.data h
    simpa [Nat.repr, Nat.toDigits, List.asString] using this
  have hm := toDigitsCore_val m (m + 1) (by omega) 0
  have hn := toDigitsCore_val n (n + 1) (by omega) 0
  rw [hd] at hm
  omega

/-- Strings prefixed by a common string are equal iff the suffixes
are. -/
theorem string_append_right_inj {a b c : String} (h : a ++ b = a ++ c) : b = c := by
  have hd := congrArg String.data h
  simp only [String.data_append] at hd
  exact String.ext (List.append_cancel_left hd)

/-! ### C8: `GraphBuilder.node` -/

theorem lookupStr_append_self {β : Type} {l : List (String × β)} {k : String}
    (h : lookupStr l k = Option.none) (v : β) :
    lookupStr (l ++ [(k, v)]) k = some v := by
  induction l with
  | nil => simp [lookupStr]
  | cons p rest ih =>
    simp only [lookupStr, List.find?] at h ⊢
    by_cases hp : p.1 == k
    · simp [hp] at h
    · simp only [hp, Bool.false_eq_true, if_false, List.cons_append] at h ⊢
      exact ih h

/-- Behaviour of a generated-id call: the returned node carries id
`prefix ++ str(id_gen)`, the counter advances by one, and
well-formedness is preserved. -/
theorem builder_node_gen (g : GraphBuilder) (hwf : g.WF) (ct : String)
    (kw : List (String × PyVal)) :
    (g.node ct Option.none kw).1.id = g.pfx ++ Nat.repr g.id_gen ∧
    (g.node ct Option.none kw).2.pfx = g.pfx ∧
    (g.node ct Option.none kw).2.id_gen = g.id_gen + 1 ∧
    (g.node ct Option.none kw).2.WF := by
  obtain ⟨pfx, nodes, idg⟩ := g
  simp only [GraphBuilder.node]
  cases hl : lookupStr nodes (pfx ++ Nat.repr idg) with
  | some n =>
    have hmem : (pfx ++ Nat.repr idg, n) ∈ nodes := by
      simp only [lookupStr, Option.map_eq_some'] at hl
      obtain ⟨p, hp, hpn⟩ := hl
      have := List.find?_some hp
      have hmm := List.mem_of_find?_eq_some hp
      obtain ⟨p1, p2⟩ := p
      simp only [beq_iff_eq] at this
      subst this
      subst hpn
      exact hmm
    refine ⟨hwf _ hmem, rfl, rfl, ?_⟩
    intro p hp
    exact hwf p hp
  | none =>
    refine ⟨rfl, rfl, rfl, ?_⟩
    intro p hp
    rcases List.mem_append.1 hp with h | h
    · exact hwf p h
    · simp only [List.mem_singleton] at h
      subst h
      rfl

/-- C8 (confirmed): `GraphBuilder.node` is idempotent by resulting id —
a second call mapping to the same prefixed id returns the node of the
first call and leaves the builder untouched, whatever the class type
and inputs; and two calls with no explicit id yield two distinct
generated ids and two distinct node objects. -/
theorem builder_node_idempotent_and_fresh (g : GraphBuilder) (hwf : g.WF)
    (ct1 ct2 : String) (i : String) (kw1 kw2 : List (String × PyVal)) :
    ((g.node ct1 (some i) kw1).2.node ct2 (some i) kw2 =
      ((g.node ct1 (some i) kw1).1, (g.node ct1 (some i) kw1).2)) ∧
    ((g.node ct1 Option.none kw1).1.id ≠
        ((g.node ct1 Option.none kw1).2.node ct2 Option.none kw2).1.id ∧
      (g.node ct1 Option.none kw1).1 ≠
        ((g.node ct1 Option.none kw1).2.node ct2 Option.none kw2).1) := by
  constructor
  · obtain ⟨pfx, nodes, idg⟩ := g
    simp only [GraphBuilder.node]
    cases hl : lookupStr nodes (pfx ++ i) with
    | some n => simp [hl]
    | none => simp [hl, lookupStr_append_self hl]
  · obtain ⟨h1, _, _, _⟩ := builder_node_gen g hwf ct1 kw1
    obtain ⟨h2a, h2b, h2c, _⟩ := builder_node_gen (g.node ct1 Option.none kw1).2
      (builder_node_gen g hwf ct1 kw1).2.2.2 ct2 kw2
    rw [builder_node_gen g hwf ct1 kw1 |>.2.2.1] at h2a
    rw [builder_node_gen g hwf ct1 kw1 |>.2.1] at h2a
    have hne : g.pfx ++ Nat.repr g.id_gen ≠ g.pfx ++ Nat.repr (g.id_gen + 1) := by
      intro he
      have := nat_repr_inj (string_append_right_inj he)
      omega
    constructor
    · rw [h1, h2a]; exact hne
    · intro he
      apply hne
      rw [← h1, ← h2a, he]

/-- Witness for C8 at a concrete builder (empty, prefix `"p."`). -/
theorem builder_node_idempotent_and_fresh_witness :
    let g : GraphBuilder := ⟨"p.", [], 1⟩
    ((g.node "Foo" (some "n1") []).2.node "Bar" (some "n1") [] =
      ((g.node "Foo" (some "n1") []).1, (g.node "Foo" (some "n1") []).2)) ∧
    ((g.node "Foo" Option.none []).1.id ≠
        ((g.node "Foo" Option.none []).2.node "Bar" Option.none []).1.id ∧
      (g.node "Foo" Option.none []).1 ≠
        ((g.node "Foo" Option.none []).2.node "Bar" Option.none []).1) :=
  builder_node_idempotent_and_fresh ⟨"p.", [], 1⟩ (by intro p hp; simp at hp)
    "Foo" "Bar" "n1" [] []

/-! ### C9: `add_graph_prefix` -/

theorem lookupStr_prefixed {β γ : Type} (F : String × β → γ)
    (graph : List (String × β)) (pfx id : String) :
    lookupStr (graph.map (fun p => (pfx ++ p.1, F p))) (pfx ++ id)
      = (graph.find? (fun p => p.1 == id)).map F := by
  have hpred : (fun (p : String × β) => pfx ++ p.1 == pfx ++ id)
      = (fun p => p.1 == id) := by
    funext p
    by_cases h : p.1 = id
    · simp [h]
    · have h2 : pfx ++ p.1 ≠ pfx ++ id := fun hc => h (string_append_right_inj hc)
      simp [h, h2]
  calc lookupStr (graph.map (fun p => (pfx ++ p.1, F p))) (pfx ++ id)
      = ((graph.find? (fun p => pfx ++ p.1 == pfx ++ id)).map
          (fun p => (pfx ++ p.1, F p))).map Prod.snd := by
        simp [lookupStr, List.find?_map]; rfl
    _ = (graph.find? (fun p => p.1 == id)).map F := by
        rw [hpred, Option.map_map]; rfl

/-- C9 (confirmed): `add_graph_prefix` rewrites every node id to
`prefix + id`; under the rewritten id one finds the original node with
its class type kept, non-link inputs unchanged, and each link input's
source id prefixed; the declared outputs keep their length, link
outputs get their source id prefixed, and non-link outputs pass
through unchanged.  (The transform is pure by construction: it builds
new structures and the input graph value is untouched.) -/
theorem add_graph_prefix_spec (graph : List (String × NodeRec)) (outputs : List PyVal)
    (pfx : String) :
    ( ( add_graph_prefix graph outputs pfx).1.map Prod.fst
        = graph.map (fun p => pfx ++ p.1)) ∧
    (∀ id node, lookupStr graph id = some node →
      ∃ node', lookupStr ( add_graph_prefix graph outputs pfx).1 (pfx ++ id) = some node' ∧
        node'.class_type = node.class_type ∧
        node'.inputs.length = node.inputs.length ∧
        (∀ (j : ℕ) (k : String) (v : PyVal), node.inputs[j]? = some (k, v) →
          (is_link v = false → node'.inputs[j]? = some (k, v)) ∧
          (∀ (s : String) (b : PyVal), v = .pylist [.str s, b] → isNumV b = true →
            node'.inputs[j]? = some (k, .pylist [.str (pfx ++ s), b])))) ∧
    ( ( add_graph_prefix graph outputs pfx).2.length = outputs.length) ∧
    (∀ (j : ℕ) (s : String) (b : PyVal),
      outputs[j]? = some (.pylist [.str s, b]) → isNumV b = true →
      ( add_graph_prefix graph outputs pfx).2[j]?
        = some (.pylist [.str (pfx ++ s), b])) ∧
    (∀ (j : ℕ) (o : PyVal), outputs[j]? = some o → is_link o = false →
      ( add_graph_prefix graph outputs pfx).2[j]? = some o) := by
  refine ⟨?_, ?_, ?_, ?_, ?_⟩
  · simp [ add_graph_prefix]
  · intro id node hl
    have hfind := lookupStr_prefixed
      (fun p => { class_type := p.2.class_type,
                  inputs := p.2.inputs.map (fun kv =>
                    (kv.1, if is_link kv.2 then prefixLink pfx kv.2 else kv.2)) } : _ → NodeRec)
      graph pfx id
    simp only [lookupStr, Option.map_eq_some'] at hl
    obtain ⟨p, hp, hpn⟩ := hl
    obtain ⟨p1, p2⟩ := p
    simp only at hpn
    subst hpn
    rw [ add_graph_prefix]
    refine ⟨{ class_type := p2.class_type,
              inputs := p2.inputs.map (fun kv =>
                (kv.1, if is_link kv.2 then prefixLink pfx kv.2 else kv.2)) },
      ?_, rfl, by simp, ?_⟩
    · rw [hfind, hp]
      rfl
    · intro j k v hj
      constructor
      · intro hnl
        simp [List.getElem?_map, hj, hnl]
      · rintro s b rfl hb
        simp [List.getElem?_map, hj, is_link, isStrV, hb, prefixLink]
  · simp [ add_graph_prefix]
  · intro j s b hj hb
    simp [ add_graph_prefix, List.getElem?_map, hj, is_link, isStrV, hb, prefixLink]
  · intro j o hj hnl
    simp [ add_graph_prefix, List.getElem?_map, hj, hnl]

/-- Witness for C9: the spec's round-trip example — a 2-node graph
prefixed with `"sub."` gets node ids `"sub.n1"`, `"sub.n2"`, the link
`["n2", 0]` inside `n1` is rewritten to `["sub.n2", 0]`, a link output
is rewritten and a non-link output is unchanged. -/
theorem add_graph_prefix_spec_witness :
    let graph : List (String × NodeRec) :=
      [("n1", ⟨"A", [("x", .pylist [.str "n2", .int 0])]⟩), ("n2", ⟨"B", []⟩)]
    let outputs : List PyVal := [.pylist [.str "n1", .int 0], .int 7]
    ( ( add_graph_prefix graph outputs "sub.").1.map Prod.fst
        = graph.map (fun p => "sub." ++ p.1)) ∧
    (∃ node', lookupStr ( add_graph_prefix graph outputs "sub.").1 ("sub." ++ "n1")
        = some node' ∧
      node'.class_type = "A" ∧
      node'.inputs.length = 1 ∧
      (∀ (j : ℕ) (k : String) (v : PyVal),
        ([("x", PyVal.pylist [.str "n2", .int 0])] : List (String × PyVal))[j]?
          = some (k, v) →
        (is_link v = false → node'.inputs[j]? = some (k, v)) ∧
        (∀ (s : String) (b : PyVal), v = .pylist [.str s, b] → isNumV b = true →
          node'.inputs[j]? = some (k, .pylist [.str ("sub." ++ s), b])))) ∧
    ( ( add_graph_prefix graph outputs "sub.").2[0]?
        = some (.pylist [.str ("sub." ++ "n1"), .int 0])) ∧
    ( ( add_graph_prefix graph outputs "sub.").2[1]? = some (.int 7)) := by
  have h := add_graph_prefix_spec
    [("n1", ⟨"A", [("x", .pylist [.str "n2", .int 0])]⟩), ("n2", ⟨"B", []⟩)]
    [.pylist [.str "n1", .int 0], .int 7] "sub."
  refine ⟨h.1, ?_, ?_, ?_⟩
  · exact h.2.1 "n1" ⟨"A", [("x", .pylist [.str "n2", .int 0])]⟩ rfl
  · exact h.2.2.2.1 0 "n1" (.int 0) rfl rfl
  · exact h.2.2.2.2 1 (.int 7) rfl rfl

/-! ### C3: `BasicCache.clean_unused` -/

theorem foldDel_skip {β : Type} (ks : List HVal) (p : HVal × β) :
    ∀ (l : List (HVal × β)), (∀ k ∈ ks, pyEqH p.1 k = false) →
      ks.foldl (fun cc k => alistDelH cc k) (p :: l)
        = p :: ks.foldl (fun cc k => alistDelH cc k) l := by
  induction ks with
  | nil => intro l _; rfl
  | cons k ks ih =>
    intro l h
    simp only [List.foldl]
    have hk : pyEqH p.1 k = false := h k (List.mem_cons_self _ _)
    have : alistDelH (p :: l) k = p :: alistDelH l k := by
      simp [alistDelH, List.eraseP_cons, hk]
    rw [this]
    exact ih _ (fun k2 hk2 => h k2 (List.mem_cons_of_mem _ hk2))

/-- The collect-then-delete loops of `_clean_cache`/`_clean_subcaches`
remove exactly the entries whose key is not preserved. -/
theorem clean_fold_eq_filter {β : Type} (preserve : List HVal) :
    ∀ (l : List (HVal × β)), keysDistinct l →
      ((l.map Prod.fst).filter
          (fun k => !(preserve.any (fun q => pyEqH k q)))).foldl
          (fun cc k => alistDelH cc k) l
        = l.filter (fun p => preserve.any (fun q => pyEqH p.1 q))
  | [], _ => rfl
  | p :: rest, hpw => by
    obtain ⟨hhead, htail⟩ := List.pairwise_cons.1 hpw
    simp only [List.map_cons, List.filter]
    by_cases hp : preserve.any (fun q => pyEqH p.1 q)
    · simp only [hp, Bool.not_true, List.filter_cons]
      rw [foldDel_skip _ p rest ?side]
      · rw [clean_fold_eq_filter preserve rest htail]
      case side =>
        intro k hk
        rw [List.mem_filter] at hk
        obtain ⟨q, hq, hqk⟩ := List.mem_map.1 hk.1
        subst hqk
        exact (hhead q hq).1
    · simp only [hp, Bool.not_false, List.filter_cons]
      have hdel : alistDelH (p :: rest) p.1 = rest := by
        simp [alistDelH, List.eraseP_cons, pyEqH_refl]
      simp only [List.foldl_cons, hdel, hp]
      exact clean_fold_eq_filter preserve rest htail

/-- C3 (confirmed): on a bound scope with well-formed dicts,
`clean_unused` keeps exactly the data entries whose key is currently
used and exactly the child scopes whose key is a used subcache key
(dropping a child entry discards its whole subtree); and the spec's
scenario holds: bind `[A,B]`, set `A`, clean, re-bind `[B]`, clean —
then `get(A)` is absent. -/
theorem clean_unused_exact (c : BasicCache)
    (hinit : c.st.initialized = true)
    (hc : keysDistinct c.st.cache) (hs : keysDistinct c.subcaches) :
    (BasicCache.clean_unused c = some (.mk
      { c.st with cache := c.st.cache.filter (fun p => c.st.cache_key_set.get_used_keys.any (fun q => pyEqH p.1 q)) }
      (c.subcaches.filter (fun p => c.st.cache_key_set.get_used_subcache_keys.any (fun q => pyEqH p.1 q))))) ∧
    (let dp : DynPrompt := ⟨[("A", ⟨"T", []⟩), ("B", ⟨"T", []⟩)], []⟩
     let ch : String → PyVal := fun _ => PyVal.none
     let ni : String → Bool := fun _ => false
     let s1 := ((BasicCache.new KeyVariant.byID).set_prompt dp ["A", "B"] ch ni 0).1
     let s2 := (s1.set_immediate "A" (PyVal.str "v")).getD s1
     let s3 := (s2.clean_unused).getD s2
     let s4 := (s3.set_prompt dp ["B"] ch ni 0).1
     let s5 := (s4.clean_unused).getD s4
     (s1.set_immediate "A" (PyVal.str "v")).isSome = true ∧
     s2.get_immediate "A" = some (PyVal.str "v") ∧
     (s2.clean_unused).isSome = true ∧
     s3.get_immediate "A" = some (PyVal.str "v") ∧
     (s4.clean_unused).isSome = true ∧
     s5.get_immediate "A" = Option.none) := by
  constructor
  · obtain ⟨st, subs⟩ := c
    simp only [BasicCache.st] at hinit hc
    simp only [BasicCache.subcaches] at hs
    simp only [BasicCache.clean_unused, BasicCache.clean_cache, BasicCache.clean_subcaches,
      BasicCache.st, BasicCache.subcaches, hinit, if_true]
    rw [clean_fold_eq_filter _ _ hc, clean_fold_eq_filter _ _ hs]
  · refine ⟨?_, ?_, ?_, ?_, ?_, ?_⟩ <;>
      simp [BasicCache.new, BasicCache.set_prompt, BasicCache.set_immediate,
        BasicCache.get_immediate, BasicCache.clean_unused, BasicCache.clean_cache,
        BasicCache.clean_subcaches, BasicCache.st, BasicCache.subcaches,
        mkCacheKeySet, CacheKeySet.add_keys, CacheKeySet.add_key, CacheKeySet.get_data_key,
        CacheKeySet.get_used_keys, CacheKeySet.get_used_subcache_keys,
        DynPrompt.getNodeD, DynPrompt.get_node, lookupStr, alistSetStr,
        alistGetH, alistSetH, alistDelH, pyEqH]

/-- Witness for C3 at a concrete bound cache holding one used and one
stale entry and one stale subcache. -/
theorem clean_unused_exact_witness :
    let ck : CacheKeySet :=
      ⟨KeyVariant.byID, ⟨[], []⟩, fun _ => PyVal.none, fun _ => false,
        [("A", .str "keyA")], [("A", .str "subA")]⟩
    let st : CacheState :=
      ⟨KeyVariant.byID, true, ⟨[], []⟩, fun _ => PyVal.none, ck,
        [(.str "keyA", .int 1), (.str "keyB", .int 2)]⟩
    let c : BasicCache := .mk st [(.str "subB", BasicCache.new KeyVariant.byID)]
    BasicCache.clean_unused c = some (.mk
      { st with cache := st.cache.filter (fun p => ck.get_used_keys.any (fun q => pyEqH p.1 q)) }
      ([(.str "subB", BasicCache.new KeyVariant.byID)].filter (fun p => ck.get_used_subcache_keys.any (fun q => pyEqH p.1 q)))) := by
  have h := clean_unused_exact
    (.mk ⟨KeyVariant.byID, true, ⟨[], []⟩, fun _ => PyVal.none,
      ⟨KeyVariant.byID, ⟨[], []⟩, fun _ => PyVal.none, fun _ => false,
        [("A", .str "keyA")], [("A", .str "subA")]⟩,
      [(.str "keyA", .int 1), (.str "keyB", .int 2)]⟩
      [(.str "subB", BasicCache.new KeyVariant.byID)])
    rfl
    (by constructor
        · intro q hq
          simp only [List.mem_singleton] at hq
          subst hq
          exact ⟨by simp [pyEqH], by simp [pyEqH]⟩
        · constructor
          · intro q hq
            simp at hq
          · constructor)
    (by constructor
        · intro q hq
          simp at hq
        · constructor)
  exact h.1

/-! ### C4: `LRUCache.clean_unused` -/

theorem cleanKeys_subset {K K' : List HVal} (h : cleanKeys K) (hs : ∀ a ∈ K', a ∈ K) :
    cleanKeys K' :=
  fun a ha b hb => h a (hs a ha) b (hs b hb)

theorem alistDelH_eq_filter {β : Type} {l : List (HVal × β)} {k : HVal}
    (hmatch : ∀ p ∈ l, (pyEqH p.1 k = true ↔ p.1 = k))
    (hnodup : (l.map Prod.fst).Nodup) :
    alistDelH l k = l.filter (fun p => !(pyEqH p.1 k)) := by
  induction l with
  | nil => rfl
  | cons p rest ih =>
    simp only [List.map_cons, List.nodup_cons] at hnodup
    cases hp : pyEqH p.1 k with
    | true =>
      have hpk : p.1 = k := (hmatch p (List.mem_cons_self _ _)).1 hp
      simp only [alistDelH, List.eraseP_cons, hp, cond_true, List.filter_cons, Bool.not_true]
      rw [if_neg (by simp)]
      rw [eq_comm, List.filter_eq_self]
      intro q hq
      cases hqe : pyEqH q.1 k with
      | false => simp
      | true =>
        have h1 : q.1 = k := (hmatch q (List.mem_cons_of_mem _ hq)).1 hqe
        have h2 : p.1 ∈ List.map Prod.fst rest := by
          rw [hpk, ← h1]
          exact List.mem_map_of_mem Prod.fst hq
        exact absurd h2 hnodup.1
    | false =>
      have hrest := ih (fun q hq => hmatch q (List.mem_cons_of_mem _ hq)) hnodup.2
      simp only [alistDelH, List.eraseP_cons, hp, cond_false, List.filter_cons, Bool.not_false]
      rw [if_pos (by simp)]
      rw [alistDelH] at hrest
      rw [hrest]

theorem alistGetH_cons {β : Type} (p : HVal × β) (rest : List (HVal × β)) (k : HVal) :
    alistGetH (p :: rest) k
      = if pyEqH p.1 k = true then some p.2 else alistGetH rest k := by
  cases hp : pyEqH p.1 k <;> simp [alistGetH, List.find?, hp]

theorem foldDel_eq_filter_not_any {β : Type} (ks : List HVal) :
    ∀ (l : List (HVal × β)),
      (∀ p ∈ l, ∀ k ∈ ks, (pyEqH p.1 k = true ↔ p.1 = k)) →
      (l.map Prod.fst).Nodup →
      ks.foldl (fun cc k => alistDelH cc k) l
        = l.filter (fun p => !(ks.any (fun k => pyEqH p.1 k))) := by
  induction ks with
  | nil => intro l _ _; simp
  | cons k ks ih =>
    intro l hmatch hnodup
    simp only [List.foldl_cons]
    rw [alistDelH_eq_filter (fun p hp => hmatch p hp k (List.mem_cons_self _ _)) hnodup]
    rw [ih _ ?hm ?hn]
    · rw [List.filter_filter]
      apply List.filter_congr
      intro p _
      simp only [List.any_cons, Bool.not_or]
      rw [Bool.and_comm]
    case hm =>
      intro p hp k2 hk2
      exact hmatch p (List.mem_of_mem_filter hp) k2 (List.mem_cons_of_mem _ hk2)
    case hn =>
      exact hnodup.sublist (List.Sublist.map Prod.fst (List.filter_sublist l))

theorem alistGetH_filter_preserve {β : Type} {l : List (HVal × β)} {k : HVal}
    {q : HVal × β → Bool} (h : ∀ p ∈ l, pyEqH p.1 k = true → q p = true) :
    alistGetH (l.filter q) k = alistGetH l k := by
  induction l with
  | nil => rfl
  | cons p rest ih =>
    have ihr := ih (fun r hr hreq => h r (List.mem_cons_of_mem _ hr) hreq)
    cases hp : pyEqH p.1 k with
    | true =>
      have hqp := h p (List.mem_cons_self _ _) hp
      rw [List.filter_cons, if_pos hqp, alistGetH_cons, alistGetH_cons, if_pos hp, if_pos hp]
    | false =>
      by_cases hq : q p = true
      · rw [List.filter_cons, if_pos hq, alistGetH_cons, alistGetH_cons,
          if_neg (by simp [hp]), if_neg (by simp [hp]), ihr]
      · rw [List.filter_cons, if_neg hq, ihr, alistGetH_cons, if_neg (by simp [hp])]

theorem evictEntryFold_components (ks : List HVal) :
    ∀ c : LRUCache,
      (ks.foldl (fun c k => c.evictEntry k) c).basic.st
          = { c.basic.st with
              cache := ks.foldl (fun l k => alistDelH l k) c.basic.st.cache } ∧
      (ks.foldl (fun c k => c.evictEntry k) c).used_generation
          = ks.foldl (fun l k => alistDelH l k) c.used_generation ∧
      (ks.foldl (fun c k => c.evictEntry k) c).basic.subcaches = c.basic.subcaches ∧
      (ks.foldl (fun c k => c.evictEntry k) c).min_generation = c.min_generation ∧
      (ks.foldl (fun c k => c.evictEntry k) c).generation = c.generation ∧
      (ks.foldl (fun c k => c.evictEntry k) c).max_size = c.max_size := by
  induction ks with
  | nil =>
    intro c
    refine ⟨?_, rfl, rfl, rfl, rfl, rfl⟩
    obtain ⟨⟨st, subs⟩, m1, m2, m3, u, ch⟩ := c
    rfl
  | cons k ks ih =>
    intro c
    obtain ⟨h1, h2, h3, h4, h5, h6⟩ := ih (c.evictEntry k)
    simp only [List.foldl_cons]
    refine ⟨?_, ?_, ?_, ?_, ?_, ?_⟩
    · rw [h1]
      obtain ⟨⟨st, subs⟩, m1, m2, m3, u, ch⟩ := c
      rfl
    · rw [h2]; rfl
    · rw [h3]; rfl
    · rw [h4]; rfl
    · rw [h5]; rfl
    · rw [h6]; rfl

/-- One eviction pass, characterized: the minimum generation rises by
1; the surviving data entries are exactly those whose recorded
generation reaches the new minimum; recorded generations of surviving
keys are untouched; well-formedness is preserved. -/
theorem evictOnce_spec (c : LRUCache) (hwf : LRUWF c) :
    c.evictOnce.basic.st = { c.basic.st with cache := c.basic.st.cache.filter (fun p => decide (c.min_generation + 1 ≤ c.usedGen p.1)) } ∧
    c.evictOnce.basic.subcaches = c.basic.subcaches ∧
    c.evictOnce.min_generation = c.min_generation + 1 ∧
    c.evictOnce.generation = c.generation ∧
    c.evictOnce.max_size = c.max_size ∧
    (∀ k, k ∈ c.basic.st.cache.map Prod.fst → c.min_generation + 1 ≤ c.usedGen k →
      c.evictOnce.usedGen k = c.usedGen k) ∧
    LRUWF c.evictOnce := by
  obtain ⟨hnc, hnu, hck⟩ := hwf
  have hcomp := evictEntryFold_components
    ((c.basic.st.cache.map Prod.fst).filter
      (fun k => decide (c.usedGen k < c.min_generation + 1)))
    { c with min_generation := c.min_generation + 1 }
  have hto : ∀ k ∈ (c.basic.st.cache.map Prod.fst).filter
      (fun k => decide (c.usedGen k < c.min_generation + 1)),
      k ∈ c.basic.st.cache.map Prod.fst :=
    fun k hk => List.mem_of_mem_filter hk
  have hone : c.evictOnce = ((c.basic.st.cache.map Prod.fst).filter
      (fun k => decide (c.usedGen k < c.min_generation + 1))).foldl
      (fun c k => c.evictEntry k) { c with min_generation := c.min_generation + 1 } := rfl
  have hmatchC : ∀ p ∈ c.basic.st.cache,
      ∀ k ∈ (c.basic.st.cache.map Prod.fst).filter
        (fun k => decide (c.usedGen k < c.min_generation + 1)),
      (pyEqH p.1 k = true ↔ p.1 = k) := by
    intro p hp k hk
    exact hck p.1 (List.mem_append_left _ (List.mem_map_of_mem Prod.fst hp))
      k (List.mem_append_left _ (hto k hk))
  have hmatchU : ∀ p ∈ c.used_generation,
      ∀ k ∈ (c.basic.st.cache.map Prod.fst).filter
        (fun k => decide (c.usedGen k < c.min_generation + 1)),
      (pyEqH p.1 k = true ↔ p.1 = k) := by
    intro p hp k hk
    exact hck p.1 (List.mem_append_right _ (List.mem_map_of_mem Prod.fst hp))
      k (List.mem_append_left _ (hto k hk))
  have hcache : ((c.basic.st.cache.map Prod.fst).filter
        (fun k => decide (c.usedGen k < c.min_generation + 1))).foldl
        (fun l k => alistDelH l k) c.basic.st.cache
      = c.basic.st.cache.filter (fun p => decide (c.min_generation + 1 ≤ c.usedGen p.1)) := by
    rw [foldDel_eq_filter_not_any _ _ hmatchC hnc]
    apply List.filter_congr
    intro p hp
    by_cases hlt : c.usedGen p.1 < c.min_generation + 1
    · have hmem : p.1 ∈ (c.basic.st.cache.map Prod.fst).filter
          (fun k => decide (c.usedGen k < c.min_generation + 1)) :=
        List.mem_filter.2 ⟨List.mem_map_of_mem Prod.fst hp, by simpa using hlt⟩
      have hany : ((c.basic.st.cache.map Prod.fst).filter
          (fun k => decide (c.usedGen k < c.min_generation + 1))).any
            (fun k => pyEqH p.1 k) = true :=
        List.any_eq_true.2 ⟨p.1, hmem, pyEqH_refl _⟩
      rw [hany]
      have : ¬(c.min_generation + 1 ≤ c.usedGen p.1) := by omega
      simp [this]
    · have hany : ((c.basic.st.cache.map Prod.fst).filter
          (fun k => decide (c.usedGen k < c.min_generation + 1))).any
            (fun k => pyEqH p.1 k) = false := by
        rw [List.any_eq_false]
        intro k hk
        intro he
        have hk2 : p.1 = k := (hmatchC p hp k hk).1 he
        have := (List.mem_filter.1 hk).2
        rw [← hk2] at this
        simp at this
        omega
      rw [hany]
      have : c.min_generation + 1 ≤ c.usedGen p.1 := by omega
      simp [this]
  have hst : c.evictOnce.basic.st = { c.basic.st with cache := c.basic.st.cache.filter (fun p => decide (c.min_generation + 1 ≤ c.usedGen p.1)) } := by
    rw [hone, hcomp.1, hcache]
  have hused : c.evictOnce.used_generation
      = c.used_generation.filter (fun p =>
          !(((c.basic.st.cache.map Prod.fst).filter
            (fun k => decide (c.usedGen k < c.min_generation + 1))).any
              (fun k => pyEqH p.1 k))) := by
    rw [hone, hcomp.2.1, foldDel_eq_filter_not_any _ _ hmatchU hnu]
  refine ⟨hst, ?_, ?_, ?_, ?_, ?_, ?_⟩
  · rw [hone, hcomp.2.2.1]
  · rw [hone, hcomp.2.2.2.1]
  · rw [hone, hcomp.2.2.2.2.1]
  · rw [hone, hcomp.2.2.2.2.2]
  · intro k hk hge
    simp only [LRUCache.usedGen]
    rw [hused]
    rw [alistGetH_filter_preserve ?pres]
    case pres =>
      intro p hp he
      have hpk : p.1 = k := (hck p.1
        (List.mem_append_right _ (List.mem_map_of_mem Prod.fst hp))
        k (List.mem_append_left _ hk)).1 he
      have hanyf : ((c.basic.st.cache.map Prod.fst).filter
          (fun k2 => decide (c.usedGen k2 < c.min_generation + 1))).any
            (fun k2 => pyEqH p.1 k2) = false := by
        rw [List.any_eq_false]
        intro k2 hk2 he2
        have hpk2 : p.1 = k2 := (hmatchU p hp k2 hk2).1 he2
        have hlt := (List.mem_filter.1 hk2).2
        rw [← hpk2, hpk] at hlt
        simp at hlt
        omega
      rw [hanyf]
      rfl
  · refine ⟨?_, ?_, ?_⟩
    · rw [hst]
      exact hnc.sublist (List.Sublist.map Prod.fst (List.filter_sublist _))
    · rw [hused]
      exact hnu.sublist (List.Sublist.map Prod.fst (List.filter_sublist _))
    · apply cleanKeys_subset hck
      intro a ha
      rcases List.mem_append.1 ha with h | h
      · rw [hst] at h
        obtain ⟨q, hq, hqa⟩ := List.mem_map.1 h
        exact List.mem_append_left _
          (hqa ▸ List.mem_map_of_mem Prod.fst (List.mem_of_mem_filter hq))
      · rw [hused] at h
        obtain ⟨q, hq, hqa⟩ := List.mem_map.1 h
        exact List.mem_append_right _
          (hqa ▸ List.mem_map_of_mem Prod.fst (List.mem_of_mem_filter hq))

theorem filter_compose_usedGen (c : LRUCache) (t : ℕ) (ht : c.min_generation + 1 ≤ t)
    (hpres : ∀ k ∈ c.basic.st.cache.map Prod.fst,
      c.min_generation + 1 ≤ c.usedGen k → c.evictOnce.usedGen k = c.usedGen k) :
    (c.basic.st.cache.filter
        (fun p => decide (c.min_generation + 1 ≤ c.usedGen p.1))).filter
        (fun p => decide (t ≤ c.evictOnce.usedGen p.1))
      = c.basic.st.cache.filter (fun p => decide (t ≤ c.usedGen p.1)) := by
  rw [List.filter_filter]
  apply List.filter_congr
  intro p hp
  by_cases hu : c.min_generation + 1 ≤ c.usedGen p.1
  · rw [hpres p.1 (List.mem_map_of_mem _ hp) hu]
    simp [hu]
  · have h2 : ¬(t ≤ c.usedGen p.1) := by omega
    simp [hu, h2]

/-- The eviction loop, characterized: generation and capacity are
untouched, the minimum generation only rises and never passes the
current generation, at exit the cache fits the capacity or the minimum
generation has caught up, the loop is a no-op iff it never entered
(entry requires being over capacity), the surviving entries are
exactly those used at or after the final minimum generation, the loop
re-entered only while still over capacity, and well-formedness is
preserved. -/
theorem evictLoop_spec :
    ∀ (fuel : ℕ) (c : LRUCache), LRUWF c →
      c.min_generation ≤ c.generation →
      c.generation ≤ c.min_generation + fuel →
      (LRUCache.evictLoop c fuel).generation = c.generation ∧
      (LRUCache.evictLoop c fuel).max_size = c.max_size ∧
      c.min_generation ≤ (LRUCache.evictLoop c fuel).min_generation ∧
      (LRUCache.evictLoop c fuel).min_generation ≤ c.generation ∧
      ((LRUCache.evictLoop c fuel).basic.st.cache.length ≤ c.max_size ∨
        (LRUCache.evictLoop c fuel).min_generation = c.generation) ∧
      ((LRUCache.evictLoop c fuel).min_generation = c.min_generation →
        LRUCache.evictLoop c fuel = c) ∧
      ((LRUCache.evictLoop c fuel).min_generation ≠ c.min_generation →
        (LRUCache.evictLoop c fuel).basic.st.cache
            = c.basic.st.cache.filter (fun p => decide ((LRUCache.evictLoop c fuel).min_generation ≤ c.usedGen p.1)) ∧
          c.max_size < c.basic.st.cache.length) ∧
      (∀ m, c.min_generation < m → m < (LRUCache.evictLoop c fuel).min_generation →
        c.max_size <
          (c.basic.st.cache.filter (fun p => decide (m ≤ c.usedGen p.1))).length) ∧
      LRUWF (LRUCache.evictLoop c fuel)
  | 0, c, hwf, hmin, hfuel => by
    have hmg : c.min_generation = c.generation := by omega
    exact ⟨rfl, rfl, le_refl _, hmin, Or.inr hmg, fun _ => rfl,
      fun h => absurd rfl h, fun m h1 h2 => absurd (h1.trans h2) (lt_irrefl _), hwf⟩
  | fuel + 1, c, hwf, hmin, hfuel => by
    simp only [LRUCache.evictLoop]
    split
    case isFalse hg =>
      rw [Bool.and_eq_true, decide_eq_true_iff, decide_eq_true_iff] at hg
      push_neg at hg
      refine ⟨rfl, rfl, le_refl _, hmin, ?_, fun _ => rfl, fun h => absurd rfl h,
        fun m h1 h2 => absurd (h1.trans h2) (by omega), hwf⟩
      by_cases hl : c.basic.st.cache.length ≤ c.max_size
      · exact Or.inl hl
      · have h2 := hg (by omega)
        exact Or.inr (by omega)
    case isTrue hg =>
      rw [Bool.and_eq_true, decide_eq_true_iff, decide_eq_true_iff] at hg
      obtain ⟨hlen, hlt⟩ := hg
      obtain ⟨hst, hsub, hminb, hgen, hmax, hpres, hwf2⟩ := evictOnce_spec c hwf
      have hcache : c.evictOnce.basic.st.cache
          = c.basic.st.cache.filter
            (fun p => decide (c.min_generation + 1 ≤ c.usedGen p.1)) := by
        rw [hst]
      obtain ⟨ih1, ih2, ih3, ih4, ih5, ih6, ih7, ih8, ih9⟩ :=
        evictLoop_spec fuel c.evictOnce hwf2 (by omega) (by omega)
      have hLmin : c.min_generation + 1 ≤ (LRUCache.evictLoop c.evictOnce fuel).min_generation := by
        rw [hminb] at ih3
        exact ih3
      refine ⟨ih1.trans hgen, ih2.trans hmax, by omega, by rw [hgen] at ih4; exact ih4,
        ?_, ?_, ?_, ?_, ih9⟩
      · rcases ih5 with h | h
        · exact Or.inl (by rw [hmax] at h; exact h)
        · exact Or.inr (by rw [hgen] at h; exact h)
      · intro h
        exact absurd h (by omega)
      · intro _
        refine ⟨?_, hlen⟩
        by_cases hLm : (LRUCache.evictLoop c.evictOnce fuel).min_generation
            = c.evictOnce.min_generation
        · rw [ih6 hLm, hcache]
          apply List.filter_congr
          intro p _
          rw [hminb]
        · obtain ⟨h7a, _⟩ := ih7 hLm
          rw [h7a, hcache]
          exact filter_compose_usedGen c _ (by omega) hpres
      · intro m hm1 hm2
        by_cases hm : m = c.min_generation + 1
        · subst hm
          have hLne : (LRUCache.evictLoop c.evictOnce fuel).min_generation
              ≠ c.evictOnce.min_generation := by omega
          obtain ⟨_, h7b⟩ := ih7 hLne
          rw [hmax, hcache] at h7b
          exact h7b
        · have := ih8 m (by omega) hm2
          rw [hmax, hcache] at this
          rw [filter_compose_usedGen c m (by omega) hpres] at this
          exact this

theorem clean_subcaches_st (b : BasicCache) : b.clean_subcaches.st = b.st := by
  cases b; rfl

/-- C4 (confirmed): `LRUCache.clean_unused` repeatedly raises the
minimum retained generation by one, evicting exactly the entries whose
last-used generation fell below it, entering and re-entering the loop
only while the entry count exceeds the capacity and the minimum
generation lags the current one, and stopping with the count within
capacity or the minimum generation caught up; and the spec's scenario
holds: capacity 2, keys A, B, C touched in three successive
`set_prompt` generations — after `clean_unused` at most 2 entries
remain, A (oldest) is gone and C is present. -/
theorem lru_clean_unused_spec (c : LRUCache) (hwf : LRUWF c)
    (hmin : c.min_generation ≤ c.generation) :
    (c.clean_unused.generation = c.generation ∧
     c.clean_unused.max_size = c.max_size ∧
     c.min_generation ≤ c.clean_unused.min_generation ∧
     c.clean_unused.min_generation ≤ c.generation ∧
     (c.clean_unused.basic.st.cache.length ≤ c.max_size ∨
       c.clean_unused.min_generation = c.generation) ∧
     (c.clean_unused.min_generation = c.min_generation →
       c.clean_unused.basic.st.cache = c.basic.st.cache) ∧
     (c.clean_unused.min_generation ≠ c.min_generation →
       c.clean_unused.basic.st.cache
           = c.basic.st.cache.filter (fun p => decide (c.clean_unused.min_generation ≤ c.usedGen p.1)) ∧
         c.max_size < c.basic.st.cache.length) ∧
     (∀ m, c.min_generation < m → m < c.clean_unused.min_generation →
       c.max_size <
         (c.basic.st.cache.filter (fun p => decide (m ≤ c.usedGen p.1))).length)) ∧
    (let dp : DynPrompt := ⟨[("A", ⟨"T", []⟩), ("B", ⟨"T", []⟩), ("C", ⟨"T", []⟩)], []⟩
     let ch : String → PyVal := fun _ => PyVal.none
     let ni : String → Bool := fun _ => false
     let l1 := ((LRUCache.new KeyVariant.byID 2).set_prompt dp ["A"] ch ni 0).1
     let l2 := (l1.set "A" (PyVal.int 1)).getD l1
     let l3 := (l2.set_prompt dp ["B"] ch ni 0).1
     let l4 := (l3.set "B" (PyVal.int 2)).getD l3
     let l5 := (l4.set_prompt dp ["C"] ch ni 0).1
     let l6 := (l5.set "C" (PyVal.int 3)).getD l5
     let l7 := l6.clean_unused
     (l1.set "A" (PyVal.int 1)).isSome = true ∧
     (l3.set "B" (PyVal.int 2)).isSome = true ∧
     (l5.set "C" (PyVal.int 3)).isSome = true ∧
     l6.basic.st.cache.length = 3 ∧
     l7.basic.st.cache.length ≤ 2 ∧
     alistMemH l7.basic.st.cache (.tup [.str "A", .str "T"]) = false ∧
     alistGetH l7.basic.st.cache (.tup [.str "C", .str "T"]) = some (PyVal.int 3)) := by
  constructor
  · obtain ⟨ih1, ih2, ih3, ih4, ih5, ih6, ih7, ih8, _⟩ :=
      evictLoop_spec (c.generation - c.min_generation) c hwf hmin (by omega)
    have hst : c.clean_unused.basic.st
        = (LRUCache.evictLoop c (c.generation - c.min_generation)).basic.st := by
      simp only [LRUCache.clean_unused]
      exact clean_subcaches_st _
    have hmin2 : c.clean_unused.min_generation
        = (LRUCache.evictLoop c (c.generation - c.min_generation)).min_generation := rfl
    have hgen2 : c.clean_unused.generation
        = (LRUCache.evictLoop c (c.generation - c.min_generation)).generation := rfl
    have hmax2 : c.clean_unused.max_size
        = (LRUCache.evictLoop c (c.generation - c.min_generation)).max_size := rfl
    refine ⟨hgen2.trans ih1, hmax2.trans ih2, ?_, ?_, ?_, ?_, ?_, ?_⟩
    · rw [hmin2]; exact ih3
    · rw [hmin2]; exact ih4
    · rw [hst, hmin2]; exact ih5
    · intro h
      rw [hmin2] at h
      rw [hst, ih6 h]
    · intro h
      rw [hmin2] at h
      obtain ⟨ha, hb⟩ := ih7 h
      rw [hst, hmin2]
      exact ⟨ha, hb⟩
    · intro m h1 h2
      rw [hmin2] at h2
      exact ih8 m h1 h2
  · refine ⟨?_, ?_, ?_, ?_, ?_, ?_, ?_⟩ <;>
      simp [LRUCache.new, BasicCache.new, LRUCache.set_prompt, BasicCache.set_prompt,
        LRUCache.set, LRUCache.mark_used, HVal.isNone, LRUCache.clean_unused, LRUCache.evictLoop,
        LRUCache.evictOnce, LRUCache.evictEntry, LRUCache.usedGen, BasicCache.set_immediate,
        BasicCache.clean_subcaches, BasicCache.st, BasicCache.subcaches, mkCacheKeySet,
        CacheKeySet.add_keys, CacheKeySet.add_key, CacheKeySet.get_data_key, CacheKeySet.get_used_subcache_keys,
        DynPrompt.getNodeD, DynPrompt.get_node, lookupStr, alistSetStr, alistGetH, alistSetH,
        alistDelH, alistMemH, pyEqH, List.find?, List.eraseP, List.filter]

/-- Witness for C4's hypotheses at a concrete over-capacity cache
(capacity 0, one stale entry, generation 1): `clean_unused` raises the
minimum generation and empties the cache. -/
theorem lru_clean_unused_spec_witness :
    let ck : CacheKeySet :=
      ⟨KeyVariant.byID, ⟨[], []⟩, fun _ => PyVal.none, fun _ => false, [], []⟩
    let c : LRUCache :=
      ⟨.mk ⟨KeyVariant.byID, true, ⟨[], []⟩, fun _ => PyVal.none, ck,
          [(.str "k", .int 1)]⟩ [],
        0, 0, 1, [(.str "k", 0)], []⟩
    (c.clean_unused.basic.st.cache.length ≤ c.max_size ∨
      c.clean_unused.min_generation = c.generation) := by
  have h := lru_clean_unused_spec
    ⟨.mk ⟨KeyVariant.byID, true, ⟨[], []⟩, fun _ => PyVal.none,
        ⟨KeyVariant.byID, ⟨[], []⟩, fun _ => PyVal.none, fun _ => false, [], []⟩,
        [(.str "k", .int 1)]⟩ [],
      0, 0, 1, [(.str "k", 0)], []⟩
    (by refine ⟨by simp [BasicCache.st], by simp, ?_⟩
        intro a ha b hb
        simp [BasicCache.st] at ha hb
        subst ha; subst hb
        simp [pyEqH])
    (by simp)
  exact h.1.2.2.2.2.1

/-! ### C5: hierarchical resolution on a broken path -/

theorem updateAlongPath_none_of_descend_none
    (f : BasicCache → Except Unit BasicCache) :
    ∀ (path : List String) (c : BasicCache),
      descendSubcaches c path = .ok Option.none →
      updateAlongPath f c path = .ok Option.none
  | [], c, h => by
    simp only [descendSubcaches] at h
    exact absurd h (by simp)
  | p :: rest, c, h => by
    simp only [descendSubcaches] at h
    simp only [updateAlongPath]
    by_cases hinit : !c.st.initialized
    · rw [if_pos hinit] at h
      exact absurd h (by simp)
    · rw [if_neg hinit] at h
      rw [if_neg hinit]
      cases hsub : c.get_subcache p with
      | none => rfl
      | some sub =>
        rw [hsub] at h
        dsimp only at h ⊢
        rw [updateAlongPath_none_of_descend_none f rest sub h]

/-- C5 (counterexample): with `X`'s ancestor chain reaching a missing
child scope, `get` soft-misses but `set` hits the `assert cache is not
None` and raises — the claim's "get and set ... never raise" is false
for `set`. -/
theorem hierarchical_set_raises_cex :
    HierarchicalCache.get brokenRoot "X" = .ok Option.none ∧
    HierarchicalCache.set brokenRoot "X" (PyVal.int 5) = .error () := by
  constructor <;>
    simp [brokenRoot, brokenDP, BasicCache.new, BasicCache.set_prompt, mkCacheKeySet,
      CacheKeySet.add_keys, CacheKeySet.add_key, CacheKeySet.get_data_key, CacheKeySet.get_subcache_key,
      DynPrompt.getNodeD, DynPrompt.get_node, DynPrompt.get_parent_node_id, lookupStr,
      alistSetStr, alistGetH, HierarchicalCache.get, HierarchicalCache.set,
      HierarchicalCache.get_cache_for, parentChain, descendSubcaches, updateAlongPath,
      BasicCache.get_subcache, BasicCache.get_immediate, BasicCache.set_immediate,
      BasicCache.st, BasicCache.subcaches, List.find?, pyEqH]

/-- C5 (amended): whenever the ancestor-chain walk fails to resolve a
scope (a missing child scope along the path), `get` reports "no cached
value" without raising, while `set` fails the `assert cache is not
None` — a fatal precondition violation, not a soft miss. -/
theorem hierarchical_broken_path (c : BasicCache) (node_id : String) (value : PyVal)
    (h : HierarchicalCache.get_cache_for c node_id = .ok Option.none) :
    HierarchicalCache.get c node_id = .ok Option.none ∧
    HierarchicalCache.set c node_id value = .error () := by
  constructor
  · simp only [HierarchicalCache.get, h]
  · simp only [HierarchicalCache.set]
    simp only [HierarchicalCache.get_cache_for] at h
    cases hp : c.st.dynprompt.get_parent_node_id node_id with
    | none =>
      rw [hp] at h
      exact absurd h (by simp)
    | some pid =>
      rw [hp] at h
      rw [updateAlongPath_none_of_descend_none _ _ _ h]

/-- Witness for C5's amended theorem at the broken-path example. -/
theorem hierarchical_broken_path_witness :
    HierarchicalCache.get brokenRoot "X" = .ok Option.none ∧
    HierarchicalCache.set brokenRoot "X" (PyVal.int 7) = .error () :=
  hierarchical_broken_path brokenRoot "X" (PyVal.int 7)
    (by simp [brokenRoot, brokenDP, BasicCache.new, BasicCache.set_prompt, mkCacheKeySet,
      CacheKeySet.add_keys, CacheKeySet.add_key, CacheKeySet.get_subcache_key, DynPrompt.getNodeD,
      DynPrompt.get_node, DynPrompt.get_parent_node_id, lookupStr, alistSetStr, alistGetH,
      HierarchicalCache.get_cache_for, parentChain, descendSubcaches,
      BasicCache.get_subcache, BasicCache.st, BasicCache.subcaches, List.find?, pyEqH])

/-! ### C10: `LRUCache.ensure_subcache_for` -/

theorem alistGetH_setH_self {β : Type} (k : HVal) (v : β) :
    ∀ l : List (HVal × β), alistGetH (alistSetH k v l) k = some v
  | [] => by simp [alistSetH, alistGetH, List.find?, pyEqH_refl]
  | p :: rest => by
    by_cases hp : pyEqH p.1 k = true
    · have h1 : alistSetH k v (p :: rest) = (p.1, v) :: rest := by
        simp [alistSetH, hp]
      rw [h1, alistGetH_cons, if_pos hp]
    · have h1 : alistSetH k v (p :: rest) = p :: alistSetH k v rest := by
        simp [alistSetH, hp]
      rw [h1, alistGetH_cons, if_neg (by simp [hp])]
      exact alistGetH_setH_self k v rest

theorem alistGetH_setH_keepval {β : Type} (k2 : HVal) (g : β) :
    ∀ (l : List (HVal × β)) (k : HVal), alistGetH l k = some g →
      alistGetH (alistSetH k2 g l) k = some g
  | [], k, h => by simp [alistGetH, List.find?] at h
  | p :: rest, k, h => by
    rw [alistGetH_cons] at h
    by_cases h2 : pyEqH p.1 k2 = true
    · have h1 : alistSetH k2 g (p :: rest) = (p.1, g) :: rest := by
        simp [alistSetH, h2]
      rw [h1, alistGetH_cons]
      by_cases hk : pyEqH p.1 k = true
      · rw [if_pos hk]
      · rw [if_neg hk]
        rw [if_neg hk] at h
        exact h
    · have h1 : alistSetH k2 g (p :: rest) = p :: alistSetH k2 g rest := by
        simp [alistSetH, h2]
      rw [h1, alistGetH_cons]
      by_cases hk : pyEqH p.1 k = true
      · rw [if_pos hk]
        rw [if_pos hk] at h
        exact h
      · rw [if_neg hk]
        rw [if_neg hk] at h
        exact alistGetH_setH_keepval k2 g rest k h

theorem lookupStr_cons {β : Type} (p : String × β) (rest : List (String × β))
    (k : String) :
    lookupStr (p :: rest) k = if p.1 == k then some p.2 else lookupStr rest k := by
  cases hp : p.1 == k <;> simp [lookupStr, List.find?, hp]

theorem lookupStr_setStr_self {β : Type} (k : String) (v : β) :
    ∀ l : List (String × β), lookupStr (alistSetStr k v l) k = some v
  | [] => by simp [alistSetStr, lookupStr, List.find?]
  | p :: rest => by
    cases hp : p.1 == k with
    | true =>
      have h1 : alistSetStr k v (p :: rest) = (p.1, v) :: rest := by
        simp [alistSetStr, hp]
      rw [h1, lookupStr_cons, if_pos hp]
    | false =>
      have h1 : alistSetStr k v (p :: rest) = p :: alistSetStr k v rest := by
        simp [alistSetStr, hp]
      rw [h1, lookupStr_cons, if_neg (by simp [hp])]
      exact lookupStr_setStr_self k v rest

theorem lookupStr_setStr_other {β : Type} (k k' : String) (hne : ¬(k' == k) = true)
    (v : β) : ∀ l : List (String × β),
      lookupStr (alistSetStr k v l) k' = lookupStr l k'
  | [] => by
    have : ¬(k == k') = true := by
      intro h
      rw [beq_iff_eq] at h
      exact hne (by rw [beq_iff_eq]; exact h.symm)
    simp [alistSetStr, lookupStr, List.find?, this]
  | p :: rest => by
    cases hp : p.1 == k with
    | true =>
      have h1 : alistSetStr k v (p :: rest) = (p.1, v) :: rest := by
        simp [alistSetStr, hp]
      have hpk : ¬(p.1 == k') = true := by
        intro h
        rw [beq_iff_eq] at h
        rw [beq_iff_eq] at hp
        exact hne (by rw [beq_iff_eq]; exact h.symm.trans hp)
      rw [h1, lookupStr_cons, if_neg hpk, lookupStr_cons, if_neg hpk]
    | false =>
      have h1 : alistSetStr k v (p :: rest) = p :: alistSetStr k v rest := by
        simp [alistSetStr, hp]
      rw [h1, lookupStr_cons, lookupStr_cons]
      cases hp' : p.1 == k' with
      | true => rw [if_pos rfl, if_pos rfl]
      | false =>
        rw [if_neg (by simp), if_neg (by simp)]
        exact lookupStr_setStr_other k k' hne v rest

theorem mem_alistSetStr_val {β : Type} (k : String) (v : β) :
    ∀ (l : List (String × β)) (p : String × β), p ∈ alistSetStr k v l →
      p ∈ l ∨ p.2 = v
  | [], p, hp => by
    simp only [alistSetStr, List.mem_singleton] at hp
    exact Or.inr (by rw [hp])
  | q :: rest, p, hp => by
    cases hq : q.1 == k with
    | true =>
      have h1 : alistSetStr k v (q :: rest) = (q.1, v) :: rest := by
        simp [alistSetStr, hq]
      rw [h1, List.mem_cons] at hp
      rcases hp with h2 | h2
      · exact Or.inr (by rw [h2])
      · exact Or.inl (List.mem_cons_of_mem _ h2)
    | false =>
      have h1 : alistSetStr k v (q :: rest) = q :: alistSetStr k v rest := by
        simp [alistSetStr, hq]
      rw [h1, List.mem_cons] at hp
      rcases hp with h2 | h2
      · exact Or.inl (h2 ▸ List.mem_cons_self _ _)
      · rcases mem_alistSetStr_val k v rest p h2 with h3 | h3
        · exact Or.inl (List.mem_cons_of_mem _ h3)
        · exact Or.inr h3

theorem get_node_signature_ne_none (dp : DynPrompt) (ni : String → Bool)
    (ch : String → PyVal) (nid : String) (g : ℕ) :
    (get_node_signature dp ni ch nid g).1 ≠ HVal.none := by
  simp [get_node_signature, to_hashable]

/-- `add_key` at one id: existing entries and their values survive,
no `None` value is ever stored, and the given id gains a non-`None`
key. -/
theorem add_key_spec (ck : CacheKeySet) (nid : String) (g : ℕ)
    (hnn : ∀ p ∈ ck.keys, p.2 ≠ HVal.none) :
    (∀ x v, lookupStr ck.keys x = some v →
      lookupStr (ck.add_key nid g).1.keys x = some v) ∧
    (∀ p ∈ (ck.add_key nid g).1.keys, p.2 ≠ HVal.none) ∧
    (lookupStr (ck.add_key nid g).1.keys nid).isSome = true := by
  by_cases hpre : (lookupStr ck.keys nid).isSome
  · have h1 : ck.add_key nid g = (ck, g) := by
      simp [CacheKeySet.add_key, hpre]
    rw [h1]
    exact ⟨fun _ _ h => h, hnn, hpre⟩
  · have hkeys : ∃ key : HVal, (ck.add_key nid g).1.keys = alistSetStr nid key ck.keys ∧
        key ≠ HVal.none := by
      cases hv : ck.variant with
      | byID =>
        refine ⟨.tup [.str nid, .str (ck.dynprompt.getNodeD nid).class_type], ?_, by simp⟩
        simp [CacheKeySet.add_key, hpre, hv]
      | byInputSig =>
        refine ⟨(get_node_signature ck.dynprompt ck.not_idempotent ck.is_changed nid g).1,
          ?_, get_node_signature_ne_none _ _ _ _ _⟩
        simp [CacheKeySet.add_key, hpre, hv]
    obtain ⟨key, hk, hkn⟩ := hkeys
    refine ⟨?_, ?_, ?_⟩
    · intro x v h
      rw [hk]
      have hxn : ¬(x == nid) := by
        intro he
        rw [show x = nid from by simpa using he] at h
        simp [h] at hpre
      rw [lookupStr_setStr_other nid x hxn key ck.keys]
      exact h
    · intro p hp
      rw [hk] at hp
      rcases mem_alistSetStr_val nid key ck.keys p hp with h | h
      · exact hnn p h
      · rw [h]; exact hkn
    · rw [hk, lookupStr_setStr_self]
      rfl

/-- `add_keys` preserves existing entries, never stores `None` as a
key, and afterwards every given id has a key. -/
theorem add_keys_spec :
    ∀ (cids : List String) (ck : CacheKeySet) (g : ℕ),
      (∀ p ∈ ck.keys, p.2 ≠ HVal.none) →
      (∀ x v, lookupStr ck.keys x = some v →
        lookupStr (ck.add_keys cids g).1.keys x = some v) ∧
      (∀ p ∈ (ck.add_keys cids g).1.keys, p.2 ≠ HVal.none) ∧
      (∀ x ∈ cids, (lookupStr (ck.add_keys cids g).1.keys x).isSome = true)
  | [], ck, g, hnn => ⟨fun _ _ h => h, hnn, by simp⟩
  | nid :: cids, ck, g, hnn => by
    obtain ⟨s1, s2, s3⟩ := add_key_spec ck nid g hnn
    have hrw : ck.add_keys (nid :: cids) g
        = (ck.add_key nid g).1.add_keys cids (ck.add_key nid g).2 := rfl
    obtain ⟨r1, r2, r3⟩ := add_keys_spec cids (ck.add_key nid g).1 (ck.add_key nid g).2 s2
    rw [hrw]
    refine ⟨fun x v h => r1 x v (s1 x v h), r2, ?_⟩
    intro x hx
    rcases List.mem_cons.1 hx with h | h
    · subst h
      obtain ⟨v, hv⟩ := Option.isSome_iff_exists.1 s3
      exact (r1 x v hv) ▸ rfl
    · exact r3 x h

theorem isNone_iff (k : HVal) : k.isNone = true ↔ k = HVal.none := by
  cases k <;> simp [HVal.isNone]

/-- `_mark_used` only touches the generation record: everything else is
preserved, previously current records stay current, and the marked
key's record becomes current. -/
theorem mark_used_parts (c : LRUCache) (x : String) :
    (c.mark_used x).basic = c.basic ∧
    (c.mark_used x).generation = c.generation ∧
    (c.mark_used x).max_size = c.max_size ∧
    (c.mark_used x).min_generation = c.min_generation ∧
    (c.mark_used x).children = c.children ∧
    (∀ k2, alistGetH c.used_generation k2 = some c.generation →
      alistGetH (c.mark_used x).used_generation k2 = some c.generation) ∧
    (c.basic.st.cache_key_set.get_data_key x ≠ HVal.none →
      alistGetH (c.mark_used x).used_generation
        (c.basic.st.cache_key_set.get_data_key x) = some c.generation) := by
  by_cases hk : (c.basic.st.cache_key_set.get_data_key x).isNone = true
  · have h1 : c.mark_used x = c := by
      simp [LRUCache.mark_used, hk]
    rw [h1]
    exact ⟨rfl, rfl, rfl, rfl, rfl, fun _ h => h,
      fun hne => absurd ((isNone_iff _).1 hk) hne⟩
  · have h1 : c.mark_used x = { c with used_generation := alistSetH (c.basic.st.cache_key_set.get_data_key x) c.generation c.used_generation } := by
      simp [LRUCache.mark_used, hk]
    rw [h1]
    exact ⟨rfl, rfl, rfl, rfl, rfl,
      fun k2 h => alistGetH_setH_keepval _ _ _ _ h,
      fun _ => alistGetH_setH_self _ _ _⟩

/-- `_ensure_subcache` keeps the parent state, stores the (re)bound
child under the node's subcache key, and the child comes back bound. -/
theorem ensure_subcache_parts (b : BasicCache) (nid : String) (cids : List String)
    (ni : String → Bool) (g : ℕ) :
    (b.ensure_subcache nid cids ni g).1
        = .mk b.st (alistSetH (b.st.cache_key_set.get_subcache_key nid)
            (b.ensure_subcache nid cids ni g).2.1 b.subcaches) ∧
    (b.ensure_subcache nid cids ni g).2.1.st.initialized = true :=
  ⟨rfl, rfl⟩

/-- The children loop of `ensure_subcache_for`: the cache state proper
is untouched, the record under `K` accumulates the children's data
keys in order, current generation-records survive, and every child
with a known key ends up marked at the current generation. -/
theorem childFold_spec (K : HVal) :
    ∀ (cids : List String) (c0 : LRUCache) (acc : List HVal),
      alistGetH c0.children K = some acc →
      (cids.foldl (childStep K) c0).basic = c0.basic ∧
      (cids.foldl (childStep K) c0).generation = c0.generation ∧
      (cids.foldl (childStep K) c0).max_size = c0.max_size ∧
      (cids.foldl (childStep K) c0).min_generation = c0.min_generation ∧
      alistGetH (cids.foldl (childStep K) c0).children K
        = some (acc ++ cids.map (fun x => c0.basic.st.cache_key_set.get_data_key x)) ∧
      (∀ k2, alistGetH c0.used_generation k2 = some c0.generation →
        alistGetH (cids.foldl (childStep K) c0).used_generation k2
          = some c0.generation) ∧
      (∀ x ∈ cids, c0.basic.st.cache_key_set.get_data_key x ≠ HVal.none →
        alistGetH (cids.foldl (childStep K) c0).used_generation
          (c0.basic.st.cache_key_set.get_data_key x) = some c0.generation)
  | [], c0, acc, hacc =>
    ⟨rfl, rfl, rfl, rfl, by simpa using hacc, fun _ h => h, by simp⟩
  | x0 :: cids, c0, acc, hacc => by
    obtain ⟨m1, m2, m3, m4, m5, m6, m7⟩ := mark_used_parts c0 x0
    have hstep : childStep K c0 x0
        = { c0.mark_used x0 with children := alistSetH K (acc ++ [c0.basic.st.cache_key_set.get_data_key x0]) (c0.mark_used x0).children } := by
      simp only [childStep]
      rw [m5, hacc, m1]
      rfl
    have hc1b : (childStep K c0 x0).basic = c0.basic := by rw [hstep]; exact m1
    have hc1g : (childStep K c0 x0).generation = c0.generation := by rw [hstep]; exact m2
    have hc1m : (childStep K c0 x0).max_size = c0.max_size := by rw [hstep]; exact m3
    have hc1n : (childStep K c0 x0).min_generation = c0.min_generation := by
      rw [hstep]; exact m4
    have hc1u : (childStep K c0 x0).used_generation
        = (c0.mark_used x0).used_generation := by rw [hstep]
    have hc1c : alistGetH (childStep K c0 x0).children K
        = some (acc ++ [c0.basic.st.cache_key_set.get_data_key x0]) := by
      rw [hstep]
      simp only [m5]
      exact alistGetH_setH_self _ _ _
    obtain ⟨i1, i2, i3, i4, i5, i6, i7⟩ := childFold_spec K cids (childStep K c0 x0)
      (acc ++ [c0.basic.st.cache_key_set.get_data_key x0]) hc1c
    have hfold : (x0 :: cids).foldl (childStep K) c0
        = cids.foldl (childStep K) (childStep K c0 x0) := rfl
    rw [hfold]
    refine ⟨i1.trans hc1b, i2.trans hc1g, i3.trans hc1m, i4.trans hc1n, ?_, ?_, ?_⟩
    · rw [i5, hc1b]
      simp [List.append_assoc]
    · intro k2 h
      have h2 := m6 k2 h
      rw [← hc1u] at h2
      rw [← hc1g] at h2 ⊢
      exact i6 k2 h2
    · intro x hx hxk
      rcases List.mem_cons.1 hx with h | h
      · subst h
        have h2 := m7 hxk
        rw [← hc1u] at h2
        rw [← hc1g] at h2 ⊢
        exact i6 _ h2
      · have := i7 x h (by rw [hc1b]; exact hxk)
        rw [hc1b, hc1g] at this
        exact this

theorem get_data_key_ne_none (ck : CacheKeySet) (x : String)
    (hs : (lookupStr ck.keys x).isSome = true)
    (hnn : ∀ p ∈ ck.keys, p.2 ≠ HVal.none) :
    ck.get_data_key x ≠ HVal.none := by
  obtain ⟨v, hv⟩ := Option.isSome_iff_exists.1 hs
  have : ck.get_data_key x = v := by
    simp [CacheKeySet.get_data_key, hv]
  rw [this]
  simp only [lookupStr, Option.map_eq_some'] at hv
  obtain ⟨p, hp, hpv⟩ := hv
  exact hpv ▸ hnn p (List.mem_of_find?_eq_some hp)

/-- The marking/recording phase characterized: cache state untouched,
the node and each child with a known key marked at the current
generation, and the children's keys recorded in order under the node's
key. -/
theorem ensure_tail_spec (c2 : LRUCache) (nid : String) (cids : List String) :
    (ensureTail c2 nid cids).basic = c2.basic ∧
    (ensureTail c2 nid cids).generation = c2.generation ∧
    (ensureTail c2 nid cids).max_size = c2.max_size ∧
    (ensureTail c2 nid cids).min_generation = c2.min_generation ∧
    (c2.basic.st.cache_key_set.get_data_key nid ≠ HVal.none →
      (ensureTail c2 nid cids).usedGen (c2.basic.st.cache_key_set.get_data_key nid)
        = c2.generation) ∧
    (∀ x ∈ cids, c2.basic.st.cache_key_set.get_data_key x ≠ HVal.none →
      (ensureTail c2 nid cids).usedGen (c2.basic.st.cache_key_set.get_data_key x)
        = c2.generation) ∧
    alistGetH (ensureTail c2 nid cids).children
        (c2.basic.st.cache_key_set.get_data_key nid)
      = some (cids.map (fun x => c2.basic.st.cache_key_set.get_data_key x)) := by
  obtain ⟨m1, m2, m3, m4, m5, m6, m7⟩ := mark_used_parts c2 nid
  have hKeq : (c2.mark_used nid).basic.st.cache_key_set.get_data_key nid
      = c2.basic.st.cache_key_set.get_data_key nid := by rw [m1]
  have hunf : ensureTail c2 nid cids
      = cids.foldl (childStep ((c2.mark_used nid).basic.st.cache_key_set.get_data_key nid))
          { c2.mark_used nid with children := alistSetH ((c2.mark_used nid).basic.st.cache_key_set.get_data_key nid) [] (c2.mark_used nid).children } := rfl
  have hacc : alistGetH ({ c2.mark_used nid with children := alistSetH ((c2.mark_used nid).basic.st.cache_key_set.get_data_key nid) [] (c2.mark_used nid).children } : LRUCache).children
      ((c2.mark_used nid).basic.st.cache_key_set.get_data_key nid) = some [] :=
    alistGetH_setH_self _ _ _
  obtain ⟨i1, i2, i3, i4, i5, i6, i7⟩ := childFold_spec
    ((c2.mark_used nid).basic.st.cache_key_set.get_data_key nid) cids
    { c2.mark_used nid with children := alistSetH ((c2.mark_used nid).basic.st.cache_key_set.get_data_key nid) [] (c2.mark_used nid).children }
    [] hacc
  rw [hunf]
  have hc4b : ({ c2.mark_used nid with children := alistSetH ((c2.mark_used nid).basic.st.cache_key_set.get_data_key nid) [] (c2.mark_used nid).children } : LRUCache).basic = c2.basic := m1
  have hc4g : ({ c2.mark_used nid with children := alistSetH ((c2.mark_used nid).basic.st.cache_key_set.get_data_key nid) [] (c2.mark_used nid).children } : LRUCache).generation = c2.generation := m2
  have hc4u : ({ c2.mark_used nid with children := alistSetH ((c2.mark_used nid).basic.st.cache_key_set.get_data_key nid) [] (c2.mark_used nid).children } : LRUCache).used_generation = (c2.mark_used nid).used_generation := rfl
  refine ⟨i1.trans hc4b, i2.trans hc4g, i3.trans m3, i4.trans m4, ?_, ?_, ?_⟩
  · intro hne
    have h2 : alistGetH (c2.mark_used nid).used_generation
        (c2.basic.st.cache_key_set.get_data_key nid) = some (c2.mark_used nid).generation := by
      rw [m2]
      exact m7 hne
    have h3 := i6 _ h2
    simp only [LRUCache.usedGen]
    rw [h3]
    simp only [Option.getD_some]
    exact hc4g
  · intro x hx hne
    have hdk : ({ c2.mark_used nid with children := alistSetH ((c2.mark_used nid).basic.st.cache_key_set.get_data_key nid) [] (c2.mark_used nid).children } : LRUCache).basic.st.cache_key_set.get_data_key x
        = c2.basic.st.cache_key_set.get_data_key x := by rw [hc4b]
    have h4 := i7 x hx (by rw [hc4b]; exact hne)
    rw [← hdk]
    simp only [LRUCache.usedGen]
    rw [h4]
    simp only [Option.getD_some]
    exact hc4g
  · rw [← hKeq]
    rw [i5]
    simp only [List.nil_append, hc4b, m1]

/-- C10 (confirmed): `LRUCache.ensure_subcache_for` returns the
top-level cache, not the child scope: the top-level data map is left
untouched (so subsequent `get`/`set` for the children read and write
the top-level scope), the child scope is only created/rebound for
bookkeeping under the node's subcache key, the children ids are added
to the top-level key set, the node and every child are marked used in
the current generation, and the children's data keys are recorded
under the node's data key. -/
theorem lru_ensure_subcache_for_spec (c : LRUCache) (nid : String)
    (cids : List String) (ni : String → Bool) (g : ℕ)
    (hinit : c.basic.st.initialized = true)
    (hnn : ∀ p ∈ c.basic.st.cache_key_set.keys, p.2 ≠ HVal.none) :
    (c.ensure_subcache_for nid cids ni g).1.basic.st.cache = c.basic.st.cache ∧
    (c.ensure_subcache_for nid cids ni g).1.generation = c.generation ∧
    (c.ensure_subcache_for nid cids ni g).1.max_size = c.max_size ∧
    (c.ensure_subcache_for nid cids ni g).1.min_generation = c.min_generation ∧
    ((c.ensure_subcache_for nid cids ni g).1.basic.subcaches
      = alistSetH (c.basic.st.cache_key_set.get_subcache_key nid)
          (c.basic.ensure_subcache nid cids ni g).2.1 c.basic.subcaches) ∧
    (c.basic.ensure_subcache nid cids ni g).2.1.st.initialized = true ∧
    (∀ x ∈ cids,
      (lookupStr (c.ensure_subcache_for nid cids ni g).1.basic.st.cache_key_set.keys
        x).isSome = true) ∧
    (∀ x ∈ cids,
      (c.ensure_subcache_for nid cids ni g).1.usedGen
          ((c.ensure_subcache_for nid cids ni g).1.basic.st.cache_key_set.get_data_key x)
        = c.generation) ∧
    ((c.ensure_subcache_for nid cids ni g).1.basic.st.cache_key_set.get_data_key nid
        ≠ HVal.none →
      (c.ensure_subcache_for nid cids ni g).1.usedGen
          ((c.ensure_subcache_for nid cids ni g).1.basic.st.cache_key_set.get_data_key nid)
        = c.generation) ∧
    (alistGetH (c.ensure_subcache_for nid cids ni g).1.children
        ((c.ensure_subcache_for nid cids ni g).1.basic.st.cache_key_set.get_data_key nid)
      = some (cids.map (fun x =>
          (c.ensure_subcache_for nid cids ni g).1.basic.st.cache_key_set.get_data_key x))) ∧
    (∀ x, ((c.ensure_subcache_for nid cids ni g).1.get x).2
      = alistGetH c.basic.st.cache
          ((c.ensure_subcache_for nid cids ni g).1.basic.st.cache_key_set.get_data_key x)) := by
  obtain ⟨hens, hensInit⟩ := ensure_subcache_parts c.basic nid cids ni g
  have hensSt : (c.basic.ensure_subcache nid cids ni g).1.st = c.basic.st := by
    rw [hens]
    rfl
  have hensSub : (c.basic.ensure_subcache nid cids ni g).1.subcaches
      = alistSetH (c.basic.st.cache_key_set.get_subcache_key nid)
          (c.basic.ensure_subcache nid cids ni g).2.1 c.basic.subcaches := by
    rw [hens]
    rfl
  obtain ⟨a1, a2, a3⟩ := add_keys_spec cids
    (c.basic.ensure_subcache nid cids ni g).1.st.cache_key_set
    (c.basic.ensure_subcache nid cids ni g).2.2 (by rw [hensSt]; exact hnn)
  have hunf : c.ensure_subcache_for nid cids ni g
      = (ensureTail (ensureMid c nid cids ni g) nid cids,
        ((c.basic.ensure_subcache nid cids ni g).1.st.cache_key_set.add_keys cids
          (c.basic.ensure_subcache nid cids ni g).2.2).2) := rfl
  obtain ⟨t1, t2, t3, t4, t5, t6, t7⟩ := ensure_tail_spec (ensureMid c nid cids ni g) nid cids
  have hmidb : (ensureMid c nid cids ni g).basic = .mk
      { (c.basic.ensure_subcache nid cids ni g).1.st with
        cache_key_set := ((c.basic.ensure_subcache nid cids ni g).1.st.cache_key_set.add_keys cids (c.basic.ensure_subcache nid cids ni g).2.2).1 }
      (c.basic.ensure_subcache nid cids ni g).1.subcaches := rfl
  have hmidg : (ensureMid c nid cids ni g).generation = c.generation := rfl
  have hmidck : (ensureMid c nid cids ni g).basic.st.cache_key_set
      = ((c.basic.ensure_subcache nid cids ni g).1.st.cache_key_set.add_keys cids
          (c.basic.ensure_subcache nid cids ni g).2.2).1 := rfl
  have hmidcache : (ensureMid c nid cids ni g).basic.st.cache = c.basic.st.cache := by
    rw [hmidb]
    show (c.basic.ensure_subcache nid cids ni g).1.st.cache = c.basic.st.cache
    rw [hensSt]
  have hmidinit : (ensureMid c nid cids ni g).basic.st.initialized
      = c.basic.st.initialized := by
    rw [hmidb]
    show (c.basic.ensure_subcache nid cids ni g).1.st.initialized = c.basic.st.initialized
    rw [hensSt]
  have hmidsub : (ensureMid c nid cids ni g).basic.subcaches
      = alistSetH (c.basic.st.cache_key_set.get_subcache_key nid)
          (c.basic.ensure_subcache nid cids ni g).2.1 c.basic.subcaches := by
    rw [hmidb]
    show (c.basic.ensure_subcache nid cids ni g).1.subcaches = _
    rw [hensSub]
  have hkeyne : ∀ x ∈ cids,
      (ensureMid c nid cids ni g).basic.st.cache_key_set.get_data_key x ≠ HVal.none := by
    intro x hx
    rw [hmidck]
    exact get_data_key_ne_none _ x (a3 x hx) a2
  rw [hunf]
  refine ⟨t1 ▸ hmidcache, t2.trans hmidg, t3.trans rfl, t4.trans rfl, ?_, hensInit,
    ?_, ?_, ?_, ?_, ?_⟩
  · rw [t1]
    exact hmidsub
  · intro x hx
    have hck2 : (ensureTail (ensureMid c nid cids ni g) nid cids).basic.st.cache_key_set
        = (ensureMid c nid cids ni g).basic.st.cache_key_set := by rw [t1]
    rw [hck2, hmidck]
    exact a3 x hx
  · intro x hx
    have hck2 : (ensureTail (ensureMid c nid cids ni g) nid cids).basic.st.cache_key_set
        = (ensureMid c nid cids ni g).basic.st.cache_key_set := by rw [t1]
    rw [hck2]
    rw [t6 x hx (hkeyne x hx), hmidg]
  · intro hne
    have hck2 : (ensureTail (ensureMid c nid cids ni g) nid cids).basic.st.cache_key_set
        = (ensureMid c nid cids ni g).basic.st.cache_key_set := by rw [t1]
    rw [hck2] at hne ⊢
    rw [t5 hne, hmidg]
  · have hck2 : (ensureTail (ensureMid c nid cids ni g) nid cids).basic.st.cache_key_set
        = (ensureMid c nid cids ni g).basic.st.cache_key_set := by rw [t1]
    rw [hck2]
    exact t7
  · intro x
    obtain ⟨g1, g2, g3, g4, g5, g6, g7⟩ :=
      mark_used_parts (ensureTail (ensureMid c nid cids ni g) nid cids) x
    show ((ensureTail (ensureMid c nid cids ni g) nid cids).mark_used x).basic.get_immediate x = _
    rw [g1, t1]
    show (if !(ensureMid c nid cids ni g).basic.st.initialized then Option.none
      else alistGetH (ensureMid c nid cids ni g).basic.st.cache
        ((ensureMid c nid cids ni g).basic.st.cache_key_set.get_data_key x)) = _
    rw [hmidinit, hinit, hmidcache]
    simp only [Bool.not_true, Bool.false_eq_true, if_false]

/-- Witness for C10's hypotheses at a concrete cache: binding a
subcache for node `N` with child `D` leaves the top-level data map and
generation unchanged and marks the child used in the current
generation. -/
theorem lru_ensure_subcache_for_spec_witness :
    lruC10.basic.st.initialized = true ∧
    (∀ p ∈ lruC10.basic.st.cache_key_set.keys, p.2 ≠ HVal.none) ∧
    (lruC10.ensure_subcache_for "N" ["D"] (fun _ => false) 0).1.basic.st.cache
      = lruC10.basic.st.cache ∧
    (lruC10.ensure_subcache_for "N" ["D"] (fun _ => false) 0).1.generation
      = lruC10.generation ∧
    (∀ x ∈ ["D"],
      (lruC10.ensure_subcache_for "N" ["D"] (fun _ => false) 0).1.usedGen
          ((lruC10.ensure_subcache_for "N" ["D"] (fun _ => false) 0).1.basic.st.cache_key_set.get_data_key x)
        = lruC10.generation) := by
  have hinit : lruC10.basic.st.initialized = true := rfl
  have hnn : ∀ p ∈ lruC10.basic.st.cache_key_set.keys, p.2 ≠ HVal.none := by
    simp [lruC10, lruC10dp, BasicCache.st]
  have h := lru_ensure_subcache_for_spec lruC10 "N" ["D"] (fun _ => false) 0 hinit hnn
  exact ⟨hinit, hnn, h.1, h.2.1, h.2.2.2.2.2.2.2.1⟩

/-! ### C2: pointwise structure of sequence projections -/

/-- `==` on projected ints is integer equality. -/
theorem pyEqH_int_iff (a b : ℤ) : pyEqH (.int a) (.int b) = true ↔ a = b := by
  simp [pyEqH, HVal.numVal]

/-- `==` on projected tuples is lengthwise pointwise equality. -/
theorem pyEqH_tup_iff (xs ys : List HVal) :
    pyEqH (.tup xs) (.tup ys) = true ↔
      xs.length = ys.length ∧ ∀ p ∈ xs.zip ys, pyEqH p.1 p.2 = true := by
  simp only [pyEqH, Bool.and_eq_true, beq_iff_eq, List.all_eq_true, List.mem_attach,
    true_implies, Subtype.forall]

/-- `==` on projected frozensets is CPython's size check plus
one-directional membership. -/
theorem pyEqH_fset_iff (xs ys : List HVal) :
    pyEqH (.fset xs) (.fset ys) = true ↔
      xs.length = ys.length ∧ ∀ x ∈ xs, ∃ y ∈ ys, pyEqH x y = true := by
  simp only [pyEqH, Bool.and_eq_true, beq_iff_eq, List.all_eq_true, List.any_eq_true,
    List.mem_attach, true_implies, true_and, Subtype.forall, Subtype.exists, exists_prop]

/-- A sequence projection has one element per sequence element. -/
theorem projSeq_length : ∀ (xs : List PyVal) (g : ℕ), (projSeq xs g).1.length = xs.length
  | [], _ => by simp [projSeq]
  | _ :: rest, g => by
    simp only [projSeq, List.length_cons]
    rw [projSeq_length rest]

/-- Every element of a sequence projection is the projection of the
corresponding sequence element at some intermediate allocator state. -/
theorem projSeq_getElem_ex : ∀ (xs : List PyVal) (g i : ℕ), i < xs.length →
    ∃ gi v, xs[i]? = some v ∧ (projSeq xs g).1[i]? = some (to_hashable v gi).1
  | [], _, i, h => absurd h (by simp)
  | x :: rest, g, 0, _ => ⟨g, x, by simp, by simp [projSeq]⟩
  | x :: rest, g, i + 1, h => by
    obtain ⟨gi, v, h1, h2⟩ :=
      projSeq_getElem_ex rest (to_hashable x g).2 i (by simpa using h)
    exact ⟨gi, v, by simpa using h1, by simp [projSeq]; simpa using h2⟩

/-- `frozenset` construction keeps every element of a list whose
elements are pairwise unequal (folded form, with an accumulator every
new element is unequal to). -/
theorem fsetOf_fold_of_pairwise :
    ∀ (l acc : List HVal), (∀ x ∈ l, ∀ y ∈ acc, pyEqH x y = false) →
      l.Pairwise (fun a b => pyEqH b a = false) →
      l.foldl (fun acc x => if fsetMem x acc then acc else acc ++ [x]) acc = acc ++ l
  | [], acc, _, _ => by simp
  | x :: rest, acc, hacc, hpw => by
    have hmem : fsetMem x acc = false := by
      simp only [fsetMem, List.any_eq_false]
      exact fun y hy => by simp [hacc x (by simp) y hy]
    simp only [List.foldl_cons, hmem, Bool.false_eq_true, if_false]
    rw [fsetOf_fold_of_pairwise rest (acc ++ [x]) ?h1 (List.Pairwise.sublist (by simp) hpw)]
    · simp
    case h1 =>
      intro z hz y hy
      rcases List.mem_append.1 hy with hy | hy
      · exact hacc z (by simp [hz]) y hy
      · rw [List.mem_singleton.1 hy]
        exact (List.pairwise_cons.1 hpw).1 z hz

/-- `frozenset` of a pairwise-unequal list is the list itself. -/
theorem fsetOf_of_pairwise (l : List HVal)
    (h : l.Pairwise (fun a b => pyEqH b a = false)) : fsetOf l = l := by
  simpa using fsetOf_fold_of_pairwise l [] (by simp) h

/-- The index tags make the elements of a tagged sequence projection
pairwise unequal. -/
theorem taggedProj_pairwise (xs : List PyVal) (g : ℕ) :
    (taggedProj xs g).Pairwise (fun a b => pyEqH b a = false) := by
  rw [List.pairwise_iff_getElem]
  intro i j hi hj hij
  simp only [taggedProj, List.length_map, List.enum_length] at hi hj
  simp only [taggedProj, List.getElem_map, List.getElem_enum]
  rw [Bool.eq_false_iff]
  intro htru
  obtain ⟨-, hpt⟩ := (pyEqH_tup_iff _ _).1 htru
  have := hpt (.int j, .int i) (by simp)
  rw [pyEqH_int_iff] at this
  omega

/-- The list-projection branch of `to_hashable`, with the (inert)
duplicate elimination removed. -/
theorem proj_pylist_eq (xs : List PyVal) (g : ℕ) :
    to_hashable (.pylist xs) g = (.fset (taggedProj xs g), (projSeq xs g).2) := by
  have h := fsetOf_of_pairwise _ (taggedProj_pairwise xs g)
  simp only [taggedProj] at h
  simp [to_hashable, taggedProj, h]

/-- The tuple-projection branch of `to_hashable` coincides with the
list branch. -/
theorem proj_pytuple_eq (xs : List PyVal) (g : ℕ) :
    to_hashable (.pytuple xs) g = (.fset (taggedProj xs g), (projSeq xs g).2) := by
  have h := fsetOf_of_pairwise _ (taggedProj_pairwise xs g)
  simp only [taggedProj] at h
  simp [to_hashable, taggedProj, h]

/-- Equal projections of two sequences force equal lengths and, at every
position, equal element projections (at the allocator states the runs
reached there). -/
theorem taggedProj_eq_pointwise (xs ys : List PyVal) (gA gB : ℕ)
    (h : pyEqH (.fset (taggedProj xs gA)) (.fset (taggedProj ys gB)) = true) :
    xs.length = ys.length ∧ ∀ p ∈ xs.zip ys, ∃ g1 g2,
      pyEqH (to_hashable p.1 g1).1 (to_hashable p.2 g2).1 = true := by
  obtain ⟨hlen, hmem⟩ := (pyEqH_fset_iff _ _).1 h
  have hlx : (taggedProj xs gA).length = xs.length := by
    simp [taggedProj, projSeq_length]
  have hly : (taggedProj ys gB).length = ys.length := by
    simp [taggedProj, projSeq_length]
  refine ⟨by rw [← hlx, ← hly, hlen], ?_⟩
  intro p hp
  obtain ⟨i, hilt, hpi⟩ := List.mem_iff_getElem.1 hp
  have hix : i < xs.length := lt_of_lt_of_le hilt (by rw [List.length_zip]; omega)
  have hiy : i < ys.length := lt_of_lt_of_le hilt (by rw [List.length_zip]; omega)
  have hbA : i < (taggedProj xs gA).length := by omega
  have hbpA : i < (projSeq xs gA).1.length := by rw [projSeq_length]; omega
  have hxel : (taggedProj xs gA)[i] ∈ taggedProj xs gA := List.getElem_mem _
  obtain ⟨y, hyB, heq⟩ := hmem _ hxel
  obtain ⟨j, hjlt, hyj⟩ := List.mem_iff_getElem.1 hyB
  have hjy : j < ys.length := by omega
  have hbpB : j < (projSeq ys gB).1.length := by rw [projSeq_length]; omega
  obtain ⟨gi, vx, hvx, hpx⟩ := projSeq_getElem_ex xs gA i hix
  obtain ⟨gj, vy, hvy, hpy⟩ := projSeq_getElem_ex ys gB j hjy
  have hxel2 : (taggedProj xs gA)[i]
      = HVal.tup [.int i, (to_hashable vx gi).1] := by
    simp only [taggedProj, List.getElem_map, List.getElem_enum]
    have : (projSeq xs gA).1[i] = (to_hashable vx gi).1 := by
      have := hpx
      rwa [List.getElem?_eq_getElem hbpA, Option.some_inj] at this
    rw [this]
  have hyel2 : y = HVal.tup [.int j, (to_hashable vy gj).1] := by
    rw [← hyj]
    simp only [taggedProj, List.getElem_map, List.getElem_enum]
    have : (projSeq ys gB).1[j] = (to_hashable vy gj).1 := by
      have := hpy
      rwa [List.getElem?_eq_getElem hbpB, Option.some_inj] at this
    rw [this]
  rw [hxel2, hyel2] at heq
  obtain ⟨-, hpt⟩ := (pyEqH_tup_iff _ _).1 heq
  have hij := hpt (.int i, .int j) (by simp)
  rw [pyEqH_int_iff] at hij
  have hij2 : j = i := by omega
  rw [hij2] at hvy
  have hval := hpt ((to_hashable vx gi).1, (to_hashable vy gj).1) (by simp)
  have hpfst : p.1 = vx := by
    have h1 : p.1 = xs[i] := by rw [← hpi, List.getElem_zip]
    have h2 : xs[i]? = some xs[i] := List.getElem?_eq_getElem hix
    rw [hvx, Option.some_inj] at h2
    rw [h1, ← h2]
  have hpsnd : p.2 = vy := by
    have h1 : p.2 = ys[i] := by rw [← hpi, List.getElem_zip]
    have h2 : ys[i]? = some ys[i] := List.getElem?_eq_getElem hiy
    rw [hvy, Option.some_inj] at h2
    rw [h1, ← h2]
  exact ⟨gi, gj, by rw [hpfst, hpsnd]; exact hval⟩

/-- Pointwise necessity for equal list projections. -/
theorem projList_eq_pointwise (xs ys : List PyVal) (gA gB : ℕ)
    (h : pyEqH (to_hashable (.pylist xs) gA).1 (to_hashable (.pylist ys) gB).1 = true) :
    xs.length = ys.length ∧ ∀ p ∈ xs.zip ys, ∃ g1 g2,
      pyEqH (to_hashable p.1 g1).1 (to_hashable p.2 g2).1 = true := by
  rw [proj_pylist_eq, proj_pylist_eq] at h
  exact taggedProj_eq_pointwise xs ys gA gB h

/-- Pointwise necessity for equal tuple projections. -/
theorem projTuple_eq_pointwise (xs ys : List PyVal) (gA gB : ℕ)
    (h : pyEqH (to_hashable (.pytuple xs) gA).1 (to_hashable (.pytuple ys) gB).1 = true) :
    xs.length = ys.length ∧ ∀ p ∈ xs.zip ys, ∃ g1 g2,
      pyEqH (to_hashable p.1 g1).1 (to_hashable p.2 g2).1 = true := by
  rw [proj_pytuple_eq, proj_pytuple_eq] at h
  exact taggedProj_eq_pointwise xs ys gA gB h

/-! ### C2: renaming commutation -/

/-- `find?` by key over a key-preserving entry map. -/
theorem find_map_keyed {β γ : Type} (f : String × β → γ) :
    ∀ (l : List (String × β)) (k : String),
      (l.map (fun p => (p.1, f p))).find? (fun q => q.1 == k)
        = (l.find? (fun p => p.1 == k)).map (fun p => (p.1, f p))
  | [], _ => rfl
  | p :: rest, k => by
    by_cases h : (p.1 == k) = true
    · simp [List.find?, h]
    · simp only [List.map_cons, List.find?, h, Bool.false_eq_true]
      exact find_map_keyed f rest k

/-- `find?` by renamed key over a key-renaming entry map, for injective
renamings. -/
theorem find_map_rename {β γ : Type} (φ : String → String)
    (hinj : Function.Injective φ) (f : String × β → γ) :
    ∀ (l : List (String × β)) (k : String),
      (l.map (fun p => (φ p.1, f p))).find? (fun q => q.1 == φ k)
        = (l.find? (fun p => p.1 == k)).map (fun p => (φ p.1, f p))
  | [], _ => rfl
  | p :: rest, k => by
    have hiff : ((φ p.1 == φ k) = true) ↔ ((p.1 == k) = true) := by
      simp only [beq_iff_eq]
      exact ⟨fun h => hinj h, fun h => by rw [h]⟩
    by_cases h : (p.1 == k) = true
    · have h2 : (φ p.1 == φ k) = true := hiff.2 h
      simp [List.find?, h, h2]
    · have h2 : (φ p.1 == φ k) = false := by
        rw [Bool.eq_false_iff]
        intro hc
        exact h (hiff.1 hc)
      simp only [List.map_cons, List.find?, h, h2, Bool.false_eq_true]
      exact find_map_rename φ hinj f rest k

/-- Dict lookup over a value-only entry map. -/
theorem lookupStr_map_val {β γ : Type} (f : β → γ) (l : List (String × β)) (k : String) :
    lookupStr (l.map (fun kv => (kv.1, f kv.2))) k = (lookupStr l k).map f := by
  simp only [lookupStr]
  rw [find_map_keyed (fun kv => f kv.2) l k]
  cases l.find? (fun p => p.1 == k) <;> rfl

/-- Renamed-graph node lookup, for injective renamings. -/
theorem renameGraph_get_node (φ : String → String) (hinj : Function.Injective φ)
    (dp : DynPrompt) (id : String) :
    (renameGraph φ dp).get_node (φ id) = (dp.get_node id).map (renameNode φ) := by
  simp only [DynPrompt.get_node, renameGraph, lookupStr]
  rw [find_map_rename φ hinj (fun p => renameNode φ p.2) dp.nodes id]
  cases dp.nodes.find? (fun p => p.1 == id) <;> rfl

/-- Renamed-graph node lookup with the default record. -/
theorem renameGraph_getNodeD (φ : String → String) (hinj : Function.Injective φ)
    (dp : DynPrompt) (id : String) :
    (renameGraph φ dp).getNodeD (φ id) = renameNode φ (dp.getNodeD id) := by
  simp only [DynPrompt.getNodeD]
  rw [renameGraph_get_node φ hinj dp id]
  cases dp.get_node id <;> rfl

/-- Stable insertion ignores values, so it commutes with key-preserving
entry maps. -/
theorem insertByKey_map_keyed {β γ : Type} (f : String × β → γ) (x : String × β) :
    ∀ l : List (String × β),
      insertByKey (x.1, f x) (l.map (fun p => (p.1, f p)))
        = (insertByKey x l).map (fun p => (p.1, f p))
  | [] => rfl
  | y :: ys => by
    simp only [List.map_cons, insertByKey]
    by_cases h : strLt y.1.data x.1.data
    · simp only [h, if_true, List.map_cons, insertByKey_map_keyed f x ys]
    · simp only [h, Bool.false_eq_true, if_false, List.map_cons]

/-- Key-sorting commutes with key-preserving entry maps. -/
theorem sortedItems_map_keyed {β γ : Type} (f : String × β → γ) :
    ∀ l : List (String × β),
      sortedItems (l.map (fun p => (p.1, f p))) = (sortedItems l).map (fun p => (p.1, f p))
  | [] => rfl
  | x :: xs => by
    simp only [List.map_cons, sortedItems, sortedItems_map_keyed f xs]
    exact insertByKey_map_keyed f x (sortedItems xs)

/-- The sorted key list ignores a key-preserving entry map. -/
theorem sortedKeys_map_keyed {β γ : Type} (f : String × β → γ) (l : List (String × β)) :
    sortedKeys (l.map (fun p => (p.1, f p))) = sortedKeys l := by
  simp only [sortedKeys, sortedItems_map_keyed f l, List.map_map]
  rfl

/-- The shape of a link value. -/
theorem is_link_shape (v : PyVal) (h : is_link v = true) :
    ∃ s b, v = .pylist [.str s, b] ∧ isNumV b = true := by
  cases v with
  | pylist l =>
    rcases l with _ | ⟨a, _ | ⟨b, _ | ⟨c, t⟩⟩⟩
    · simp [is_link] at h
    · simp [is_link] at h
    · cases a <;> simp only [is_link, isStrV, Bool.false_and, Bool.true_and,
        Bool.false_eq_true] at h
      case str s => exact ⟨s, b, rfl, h⟩
    · simp [is_link] at h
  | int n => simp [is_link] at h
  | float q => simp [is_link] at h
  | str s => simp [is_link] at h
  | bool b => simp [is_link] at h
  | none => simp [is_link] at h
  | pytuple l => simp [is_link] at h
  | pydict l => simp [is_link] at h
  | frozenset l => simp [is_link] at h
  | unhashObj t => simp [is_link] at h
  | obj t => simp [is_link] at h

/-- Renaming a link keeps it a link. -/
theorem is_link_renameLink (φ : String → String) (v : PyVal) (h : is_link v = true) :
    is_link (renameLink φ v) = true := by
  obtain ⟨s, b, rfl, hb⟩ := is_link_shape v h
  simp [renameLink, is_link, isStrV, hb]

/-- Renaming a link renames exactly its source id. -/
theorem linkSrc_renameLink (φ : String → String) (v : PyVal) (h : is_link v = true) :
    linkSrc (renameLink φ v) = φ (linkSrc v) := by
  obtain ⟨s, b, rfl, hb⟩ := is_link_shape v h
  rfl

/-- Renaming a link keeps its socket. -/
theorem linkSock_renameLink (φ : String → String) (v : PyVal) (h : is_link v = true) :
    linkSock (renameLink φ v) = linkSock v := by
  obtain ⟨s, b, rfl, hb⟩ := is_link_shape v h
  rfl

/-- The input-value renaming applied by `renameNode` never changes
link-ness. -/
theorem is_link_renameVal (φ : String → String) (v : PyVal) :
    is_link (if is_link v then renameLink φ v else v) = is_link v := by
  by_cases h : is_link v = true
  · rw [if_pos h, is_link_renameLink φ v h, h]
  · rw [if_neg h]

/-- `indexOf` commutes with mapping by an injective function. -/
theorem indexOf_map_inj (φ : String → String) (hinj : Function.Injective φ) (a : String) :
    ∀ l : List String, List.indexOf (φ a) (l.map φ) = List.indexOf a l
  | [] => rfl
  | b :: t => by
    simp only [List.map_cons, List.indexOf_cons]
    have hiff : (φ b == φ a) = (b == a) := by
      by_cases h : b = a
      · simp [h]
      · have h1 : (b == a) = false := by
          rw [beq_eq_false_iff_ne]
          exact h
        have h2 : (φ b == φ a) = false := by
          rw [beq_eq_false_iff_ne]
          exact fun hc => h (hinj hc)
        rw [h1, h2]
    rw [hiff]
    cases hba : (b == a)
    · simp only [cond_false, indexOf_map_inj φ hinj a t]
    · simp only [cond_true]

/-- The ancestry walk's fold over one node's sorted input names
commutes with renaming, given commutation at the next depth. -/
theorem ancestry_fold_rename (φ : String → String) (hinj : Function.Injective φ)
    (dp : DynPrompt) (fuel : ℕ)
    (IH : ∀ n anc, get_ordered_ancestry_internal (renameGraph φ dp) fuel (φ n)
        (anc.map φ) = (get_ordered_ancestry_internal dp fuel n anc).map φ)
    (inputs : List (String × PyVal)) :
    ∀ (ks : List String) (anc : List String),
      ks.foldl (fun anc2 key =>
        match lookupStr (inputs.map (fun kv => (kv.1, if is_link kv.2 then renameLink φ kv.2 else kv.2))) key with
        | some v =>
          if is_link v then
            if linkSrc v ∈ anc2 then anc2
            else get_ordered_ancestry_internal (renameGraph φ dp) fuel (linkSrc v) (anc2 ++ [linkSrc v])
          else anc2
        | Option.none => anc2) (anc.map φ)
      = (ks.foldl (fun anc2 key =>
          match lookupStr inputs key with
          | some v =>
            if is_link v then
              if linkSrc v ∈ anc2 then anc2
              else get_ordered_ancestry_internal dp fuel (linkSrc v) (anc2 ++ [linkSrc v])
            else anc2
          | Option.none => anc2) anc).map φ
  | [], anc => rfl
  | k :: ks, anc => by
    rw [List.foldl_cons, List.foldl_cons,
      lookupStr_map_val (fun v => if is_link v then renameLink φ v else v) inputs k]
    cases hv : lookupStr inputs k with
    | none =>
      exact ancestry_fold_rename φ hinj dp fuel IH inputs ks anc
    | some v =>
      simp only [Option.map_some']
      by_cases hl : is_link v = true
      · rw [if_pos hl, is_link_renameLink φ v hl, linkSrc_renameLink φ v hl, hl]
        simp only [if_true]
        by_cases hm : linkSrc v ∈ anc
        · rw [if_pos hm, if_pos (List.mem_map_of_mem φ hm)]
          exact ancestry_fold_rename φ hinj dp fuel IH inputs ks anc
        · rw [if_neg hm, if_neg ?hnm]
          case hnm =>
            intro hc
            obtain ⟨x, hx, hxe⟩ := List.mem_map.1 hc
            rw [hinj hxe] at hx
            exact hm hx
          rw [show anc.map φ ++ [φ (linkSrc v)] = (anc ++ [linkSrc v]).map φ by
            rw [List.map_append]; rfl]
          rw [IH (linkSrc v) (anc ++ [linkSrc v])]
          exact ancestry_fold_rename φ hinj dp fuel IH inputs ks
            (get_ordered_ancestry_internal dp fuel (linkSrc v) (anc ++ [linkSrc v]))
      · rw [if_neg hl]
        have hl2 : is_link v = false := by
          rw [Bool.eq_false_iff]
          exact hl
        rw [hl2]
        simp only [Bool.false_eq_true, if_false]
        exact ancestry_fold_rename φ hinj dp fuel IH inputs ks anc

/-- The ancestry walk commutes with renaming: on the renamed graph,
starting from a renamed node and renamed visited list, it discovers the
renamed ancestors in the same order. -/
theorem ancestry_rename (φ : String → String) (hinj : Function.Injective φ)
    (dp : DynPrompt) :
    ∀ (fuel : ℕ) (n : String) (anc : List String),
      get_ordered_ancestry_internal (renameGraph φ dp) fuel (φ n) (anc.map φ)
        = (get_ordered_ancestry_internal dp fuel n anc).map φ
  | 0, _, _ => rfl
  | fuel + 1, n, anc => by
    have IH := fun n anc => ancestry_rename φ hinj dp fuel n anc
    have hnode : ((renameGraph φ dp).getNodeD (φ n)).inputs
        = (dp.getNodeD n).inputs.map
            (fun kv => (kv.1, if is_link kv.2 then renameLink φ kv.2 else kv.2)) := by
      rw [renameGraph_getNodeD φ hinj dp n]
      rfl
    simp only [get_ordered_ancestry_internal]
    rw [hnode, sortedKeys_map_keyed]
    exact ancestry_fold_rename φ hinj dp fuel IH (dp.getNodeD n).inputs
      (sortedKeys (dp.getNodeD n).inputs) anc

/-- The deterministic ancestor order is id-independent: renaming the
graph renames the ancestor list elementwise. -/
theorem ordered_ancestry_rename (φ : String → String) (hinj : Function.Injective φ)
    (dp : DynPrompt) (n : String) :
    get_ordered_ancestry (renameGraph φ dp) (φ n) = (get_ordered_ancestry dp n).map φ := by
  simp only [get_ordered_ancestry]
  have hlen : (renameGraph φ dp).nodes.length = dp.nodes.length := by
    simp [renameGraph]
  rw [hlen]
  exact ancestry_rename φ hinj dp (dp.nodes.length + 2) n []

/-- The immediate signature is id-independent: the renamed node against
the renamed ancestor list yields the very same signature value (no node
id enters it when `include_node_id_in_input` is false and the class is
not `NOT_IDEMPOTENT`). -/
theorem imm_sig_rename (φ : String → String) (hinj : Function.Injective φ)
    (dp : DynPrompt) (ch ch2 : String → PyVal) (hch : ∀ s, ch2 (φ s) = ch s)
    (n : String) (anc : List String) :
    get_immediate_node_signature (renameGraph φ dp) (fun _ => false) ch2 (φ n) (anc.map φ)
      = get_immediate_node_signature dp (fun _ => false) ch n anc := by
  simp only [get_immediate_node_signature, include_node_id_in_input, Bool.false_or,
    Bool.false_eq_true, if_false, renameGraph_getNodeD φ hinj dp n]
  have hct : (renameNode φ (dp.getNodeD n)).class_type = (dp.getNodeD n).class_type := rfl
  have hinp : (renameNode φ (dp.getNodeD n)).inputs
      = (dp.getNodeD n).inputs.map
          (fun kv => (kv.1, if is_link kv.2 then renameLink φ kv.2 else kv.2)) := rfl
  rw [hct, hinp, sortedKeys_map_keyed, hch n]
  congr 1
  congr 1
  apply List.filterMap_congr
  intro key hkey
  rw [lookupStr_map_val (fun v => if is_link v then renameLink φ v else v)
    (dp.getNodeD n).inputs key]
  cases hv : lookupStr (dp.getNodeD n).inputs key with
  | none => rfl
  | some v =>
    simp only [Option.map_some']
    by_cases hl : is_link v = true
    · rw [if_pos hl, is_link_renameLink φ v hl, hl, linkSrc_renameLink φ v hl,
        linkSock_renameLink φ v hl, indexOf_map_inj φ hinj (linkSrc v) anc]
      simp only [if_true]
    · have hl2 : is_link v = false := by
        rw [Bool.eq_false_iff]
        exact hl
      rw [if_neg hl, hl2]
      simp only [Bool.false_eq_true, if_false]

/-- C2 core, first half: the full node signature — hence the data key —
is invariant under graph isomorphism.  The projection is run at the
same allocator state, so even unrepresentable literals project
identically. -/
theorem node_signature_rename (φ : String → String) (hinj : Function.Injective φ)
    (dp : DynPrompt) (ch ch2 : String → PyVal) (hch : ∀ s, ch2 (φ s) = ch s)
    (n : String) (g : ℕ) :
    get_node_signature (renameGraph φ dp) (fun _ => false) ch2 (φ n) g
      = get_node_signature dp (fun _ => false) ch n g := by
  simp only [get_node_signature]
  rw [ordered_ancestry_rename φ hinj dp n]
  rw [imm_sig_rename φ hinj dp ch ch2 hch n (get_ordered_ancestry dp n)]
  congr 2
  rw [List.map_map]
  exact congrArg (List.cons _) (List.map_congr_left
    (fun a _ => imm_sig_rename φ hinj dp ch ch2 hch a (get_ordered_ancestry dp n)))

/-- Dict assignment commutes with key renaming, for injective
renamings. -/
theorem alistSetStr_map_rename {β : Type} (φ : String → String)
    (hinj : Function.Injective φ) (k : String) (v : β) :
    ∀ l : List (String × β),
      alistSetStr (φ k) v (l.map (fun p => (φ p.1, p.2)))
        = (alistSetStr k v l).map (fun p => (φ p.1, p.2))
  | [] => rfl
  | p :: rest => by
    simp only [List.map_cons, alistSetStr]
    by_cases h : p.1 = k
    · have h1 : (p.1 == k) = true := by simp [h]
      have h2 : (φ p.1 == φ k) = true := by simp [h]
      simp only [h1, h2, if_true, List.map_cons]
    · have h1 : (p.1 == k) = false := by
        rw [beq_eq_false_iff_ne]
        exact h
      have h2 : (φ p.1 == φ k) = false := by
        rw [beq_eq_false_iff_ne]
        exact fun hc => h (hinj hc)
      simp only [h1, h2, Bool.false_eq_true, if_false, List.map_cons,
        alistSetStr_map_rename φ hinj k v rest]

/-- Dict lookup by renamed key over renamed keys, for injective
renamings. -/
theorem lookupStr_map_rename {β : Type} (φ : String → String)
    (hinj : Function.Injective φ) (l : List (String × β)) (k : String) :
    lookupStr (l.map (fun p => (φ p.1, p.2))) (φ k) = lookupStr l k := by
  simp only [lookupStr]
  rw [find_map_rename φ hinj (fun p => p.2) l k]
  cases l.find? (fun p => p.1 == k) <;> rfl

/-- `add_keys` of the input-signature variant commutes with renaming:
run on the renamed graph over the renamed ids from a renamed data-key
map, it produces the renamed data-key map and the same allocator
state. -/
theorem add_keys_rename (φ : String → String) (hinj : Function.Injective φ)
    (dp : DynPrompt) (ch ch2 : String → PyVal) (hch : ∀ s, ch2 (φ s) = ch s) :
    ∀ (ids : List String) (ks ss ss2 : List (String × HVal)) (g : ℕ),
      (CacheKeySet.add_keys ⟨.byInputSig, renameGraph φ dp, ch2, fun _ => false,
          ks.map (fun p => (φ p.1, p.2)), ss2⟩ (ids.map φ) g).1.keys
        = (CacheKeySet.add_keys ⟨.byInputSig, dp, ch, fun _ => false, ks, ss⟩ ids g).1.keys.map (fun p => (φ p.1, p.2)) ∧
      (CacheKeySet.add_keys ⟨.byInputSig, renameGraph φ dp, ch2, fun _ => false,
          ks.map (fun p => (φ p.1, p.2)), ss2⟩ (ids.map φ) g).2
        = (CacheKeySet.add_keys ⟨.byInputSig, dp, ch, fun _ => false, ks, ss⟩ ids g).2
  | [], ks, ss, ss2, g => ⟨rfl, rfl⟩
  | id :: ids, ks, ss, ss2, g => by
    simp only [CacheKeySet.add_keys, List.map_cons, List.foldl_cons]
    simp only [CacheKeySet.add_key, lookupStr_map_rename φ hinj ks id]
    by_cases h : (lookupStr ks id).isSome = true
    · simp only [h, if_true]
      exact add_keys_rename φ hinj dp ch ch2 hch ids ks ss ss2 g
    · simp only [h, Bool.false_eq_true, if_false]
      simp only [node_signature_rename φ hinj dp ch ch2 hch id g,
        alistSetStr_map_rename φ hinj id
          (get_node_signature dp (fun _ => false) ch id g).1 ks]
      exact add_keys_rename φ hinj dp ch ch2 hch ids
        (alistSetStr id (get_node_signature dp (fun _ => false) ch id g).1 ks)
        (alistSetStr id (HVal.tup [.str id, .str (dp.getNodeD id).class_type]) ss)
        (alistSetStr (φ id)
          (HVal.tup [.str (φ id), .str ((renameGraph φ dp).getNodeD (φ id)).class_type]) ss2)
        (get_node_signature dp (fun _ => false) ch id g).2

/-! ### C2: stability of everything but the changed literal -/

/-- Node lookup after a literal change: other nodes unchanged. -/
theorem updateInput_getNodeD_ne (dp : DynPrompt) (m key : String) (v2 : PyVal)
    (id : String) (hne : id ≠ m) :
    (updateInput dp m key v2).getNodeD id = dp.getNodeD id := by
  simp only [DynPrompt.getNodeD, DynPrompt.get_node, updateInput, lookupStr]
  rw [find_map_keyed (fun p => if p.1 == m
      then (⟨p.2.class_type, p.2.inputs.map (fun kv => (kv.1, if kv.1 == key then v2 else kv.2))⟩ : NodeRec)
      else p.2) dp.nodes id]
  cases hf : dp.nodes.find? (fun p => p.1 == id) with
  | none => rfl
  | some p =>
    have hp : (p.1 == id) = true := by
      have := List.find?_some hf
      simpa using this
    have hpm : p.1 ≠ m := by
      rw [beq_iff_eq] at hp
      rw [hp]
      exact hne
    simp [hpm]

/-- Node lookup after a literal change: the changed node keeps its
class and input names, with the one value replaced. -/
theorem updateInput_getNodeD_eq (dp : DynPrompt) (m key : String) (v2 : PyVal) :
    (updateInput dp m key v2).getNodeD m
      = ⟨(dp.getNodeD m).class_type,
         (dp.getNodeD m).inputs.map (fun kv => (kv.1, if kv.1 == key then v2 else kv.2))⟩ := by
  simp only [DynPrompt.getNodeD, DynPrompt.get_node, updateInput, lookupStr]
  rw [find_map_keyed (fun p => if p.1 == m
      then (⟨p.2.class_type, p.2.inputs.map (fun kv => (kv.1, if kv.1 == key then v2 else kv.2))⟩ : NodeRec)
      else p.2) dp.nodes m]
  cases hf : dp.nodes.find? (fun p => p.1 == m) with
  | none => rfl
  | some p =>
    have hp : p.1 = m := by
      have := List.find?_some hf
      simpa using this
    simp [hp]

/-- The changed-value input map: lookups at other names unchanged. -/
theorem updateVals_lookup_ne (inputs : List (String × PyVal)) (key : String)
    (v2 : PyVal) (k : String) (hk : k ≠ key) :
    lookupStr (inputs.map (fun kv => (kv.1, if kv.1 == key then v2 else kv.2))) k
      = lookupStr inputs k := by
  simp only [lookupStr]
  rw [find_map_keyed (fun kv => if kv.1 == key then v2 else kv.2) inputs k]
  cases hf : inputs.find? (fun p => p.1 == k) with
  | none => rfl
  | some p =>
    have hp : (p.1 == k) = true := by
      have := List.find?_some hf
      simpa using this
    have hpk : p.1 ≠ key := by
      rw [beq_iff_eq] at hp
      rw [hp]
      exact hk
    simp [hpk]

/-- The changed-value input map: the lookup at the changed name returns
the new value whenever the old lookup succeeded. -/
theorem updateVals_lookup_eq (inputs : List (String × PyVal)) (key : String)
    (v v2 : PyVal) (hv : lookupStr inputs key = some v) :
    lookupStr (inputs.map (fun kv => (kv.1, if kv.1 == key then v2 else kv.2))) key
      = some v2 := by
  simp only [lookupStr] at hv ⊢
  rw [find_map_keyed (fun kv => if kv.1 == key then v2 else kv.2) inputs key]
  cases hf : inputs.find? (fun p => p.1 == key) with
  | none => rw [hf] at hv; simp at hv
  | some p =>
    have hp : p.1 = key := by
      have := List.find?_some hf
      simpa using this
    simp [hp]

/-- The ancestry walk's fold is blind to input values that stay
non-links: two graphs whose walks agree at the next depth and two input
maps whose lookups agree up to non-link values fold identically. -/
theorem ancestry_fold_update (dpB dpA : DynPrompt) (fuel : ℕ)
    (IH : ∀ n anc, get_ordered_ancestry_internal dpB fuel n anc
        = get_ordered_ancestry_internal dpA fuel n anc)
    (inputsB inputsA : List (String × PyVal))
    (hagree : ∀ k, (lookupStr inputsB k = Option.none ∧ lookupStr inputsA k = Option.none) ∨
      (∃ x y, lookupStr inputsB k = some x ∧ lookupStr inputsA k = some y ∧
        ((is_link x = false ∧ is_link y = false) ∨ x = y))) :
    ∀ (ks : List String) (anc : List String),
      ks.foldl (fun anc2 key =>
        match lookupStr inputsB key with
        | some v =>
          if is_link v then
            if linkSrc v ∈ anc2 then anc2
            else get_ordered_ancestry_internal dpB fuel (linkSrc v) (anc2 ++ [linkSrc v])
          else anc2
        | Option.none => anc2) anc
      = ks.foldl (fun anc2 key =>
          match lookupStr inputsA key with
          | some v =>
            if is_link v then
              if linkSrc v ∈ anc2 then anc2
              else get_ordered_ancestry_internal dpA fuel (linkSrc v) (anc2 ++ [linkSrc v])
            else anc2
          | Option.none => anc2) anc
  | [], _ => rfl
  | k :: ks, anc => by
    rw [List.foldl_cons, List.foldl_cons]
    rcases hagree k with ⟨hB, hA⟩ | ⟨x, y, hB, hA, hxy⟩
    · rw [hB, hA]
      exact ancestry_fold_update dpB dpA fuel IH inputsB inputsA hagree ks anc
    · rw [hB, hA]
      rcases hxy with ⟨hx, hy⟩ | rfl
      · simp only [hx, hy, Bool.false_eq_true, if_false]
        exact ancestry_fold_update dpB dpA fuel IH inputsB inputsA hagree ks anc
      · simp only []
        by_cases hl : is_link x = true
        · rw [if_pos hl, if_pos hl]
          by_cases hm : linkSrc x ∈ anc
          · rw [if_pos hm, if_pos hm]
            exact ancestry_fold_update dpB dpA fuel IH inputsB inputsA hagree ks anc
          · rw [if_neg hm, if_neg hm, IH (linkSrc x) (anc ++ [linkSrc x])]
            exact ancestry_fold_update dpB dpA fuel IH inputsB inputsA hagree ks
              (get_ordered_ancestry_internal dpA fuel (linkSrc x) (anc ++ [linkSrc x]))
        · rw [if_neg hl, if_neg hl]
          exact ancestry_fold_update dpB dpA fuel IH inputsB inputsA hagree ks anc

/-- Changing a literal (non-link) input value anywhere leaves the
ancestry walk untouched. -/
theorem ancestry_update (dp : DynPrompt) (m key : String) (v v2 : PyVal)
    (hv : lookupStr (dp.getNodeD m).inputs key = some v)
    (hlv : is_link v = false) (hlv2 : is_link v2 = false) :
    ∀ (fuel : ℕ) (n : String) (anc : List String),
      get_ordered_ancestry_internal (updateInput dp m key v2) fuel n anc
        = get_ordered_ancestry_internal dp fuel n anc
  | 0, _, _ => rfl
  | fuel + 1, n, anc => by
    have IH := fun n anc => ancestry_update dp m key v v2 hv hlv hlv2 fuel n anc
    simp only [get_ordered_ancestry_internal]
    by_cases hn : n = m
    · subst hn
      rw [updateInput_getNodeD_eq dp n key v2]
      have hinp : (⟨(dp.getNodeD n).class_type,
          (dp.getNodeD n).inputs.map (fun kv => (kv.1, if kv.1 == key then v2 else kv.2))⟩ : NodeRec).inputs
        = (dp.getNodeD n).inputs.map (fun kv => (kv.1, if kv.1 == key then v2 else kv.2)) := rfl
      rw [hinp, sortedKeys_map_keyed]
      refine ancestry_fold_update (updateInput dp n key v2) dp fuel IH _ _ ?_ _ anc
      intro k
      by_cases hk : k = key
      · subst hk
        exact Or.inr ⟨v2, v, updateVals_lookup_eq _ _ v v2 hv, hv, Or.inl ⟨hlv2, hlv⟩⟩
      · rw [updateVals_lookup_ne _ _ _ _ hk]
        cases hlk : lookupStr (dp.getNodeD n).inputs k with
        | none => exact Or.inl ⟨rfl, rfl⟩
        | some w => exact Or.inr ⟨w, w, rfl, rfl, Or.inr rfl⟩
    · rw [updateInput_getNodeD_ne dp m key v2 n hn]
      refine ancestry_fold_update (updateInput dp m key v2) dp fuel IH _ _ ?_ _ anc
      intro k
      cases hlk : lookupStr (dp.getNodeD n).inputs k with
      | none => exact Or.inl ⟨rfl, rfl⟩
      | some w => exact Or.inr ⟨w, w, rfl, rfl, Or.inr rfl⟩

/-- The deterministic ancestor order survives a literal change. -/
theorem ordered_ancestry_update (dp : DynPrompt) (m key : String) (v v2 : PyVal)
    (hv : lookupStr (dp.getNodeD m).inputs key = some v)
    (hlv : is_link v = false) (hlv2 : is_link v2 = false) (n : String) :
    get_ordered_ancestry (updateInput dp m key v2) n = get_ordered_ancestry dp n := by
  simp only [get_ordered_ancestry]
  have hlen : (updateInput dp m key v2).nodes.length = dp.nodes.length := by
    simp [updateInput]
  rw [hlen]
  exact ancestry_update dp m key v v2 hv hlv hlv2 (dp.nodes.length + 2) n []

/-- Zipping two `filterMap`s that keep the same positions. -/
theorem zip_filterMap {α β : Type} (f f2 : α → Option β) :
    ∀ l : List α, (∀ x ∈ l, (f x).isSome = (f2 x).isSome) →
      (l.filterMap f).zip (l.filterMap f2)
        = l.filterMap (fun x => (f x).bind (fun a => (f2 x).map (fun b => (a, b))))
  | [], _ => rfl
  | x :: t, h => by
    have ht : ∀ y ∈ t, (f y).isSome = (f2 y).isSome := fun y hy => h y (by simp [hy])
    cases hf : f x with
    | none =>
      have hf2 : f2 x = Option.none := by
        have hx := h x (by simp)
        rw [hf] at hx
        cases hf2x : f2 x
        · rfl
        · rw [hf2x] at hx
          simp at hx
      simp only [List.filterMap_cons, hf, hf2, Option.none_bind]
      exact zip_filterMap f f2 t ht
    | some a =>
      have hex : ∃ b, f2 x = some b := by
        have hx := h x (by simp)
        rw [hf] at hx
        cases hf2x : f2 x
        · rw [hf2x] at hx
          simp at hx
        · exact ⟨_, rfl⟩
      obtain ⟨b, hf2⟩ := hex
      simp only [List.filterMap_cons, hf, hf2, Option.some_bind, Option.map_some',
        List.zip_cons_cons]
      rw [zip_filterMap f f2 t ht]

/-- A signature entry exists exactly when the input name resolves. -/
theorem entryF_isSome (inputs : List (String × PyVal)) (anc : List String) (k : String) :
    (entryF inputs anc k).isSome = (lookupStr inputs k).isSome := by
  cases h : lookupStr inputs k with
  | none => simp [entryF, h]
  | some v =>
    cases hl : is_link v <;> simp [entryF, h, hl]

/-- The immediate signature, written as its head and entry list (with
`include_node_id_in_input` false and no `NOT_IDEMPOTENT` class). -/
theorem imm_sig_eq_pylist (dp : DynPrompt) (ch : String → PyVal) (id : String)
    (anc : List String) :
    get_immediate_node_signature dp (fun _ => false) ch id anc
      = .pylist ([PyVal.str (dp.getNodeD id).class_type, ch id]
          ++ (sortedKeys (dp.getNodeD id).inputs).filterMap
              (entryF (dp.getNodeD id).inputs anc)) := rfl

/-- A key looked up successfully is among the sorted keys. -/
theorem mem_sortedKeys_of_lookup {β : Type} (l : List (String × β)) (k : String) (v : β)
    (hv : lookupStr l k = some v) : k ∈ sortedKeys l := by
  simp only [lookupStr, Option.map_eq_some'] at hv
  obtain ⟨p, hp, -⟩ := hv
  have hpk : p.1 = k := by
    have := List.find?_some hp
    simpa using this
  have hpl : p ∈ l := List.mem_of_find?_eq_some hp
  simp only [sortedKeys]
  rw [List.Perm.mem_iff ((sortedItems_perm l).map Prod.fst)]
  rw [← hpk]
  exact List.mem_map_of_mem Prod.fst hpl

/-- The changed literal produces an aligned pair of entries in the two
signatures' entry lists. -/
theorem changed_entry_mem (dp : DynPrompt) (m key : String) (v v2 : PyVal)
    (hv : lookupStr (dp.getNodeD m).inputs key = some v)
    (hlv : is_link v = false) (hlv2 : is_link v2 = false) (anc : List String) :
    ((.pytuple [.str key, v], .pytuple [.str key, v2]) : PyVal × PyVal)
      ∈ ((sortedKeys (dp.getNodeD m).inputs).filterMap
          (entryF (dp.getNodeD m).inputs anc)).zip
        ((sortedKeys (dp.getNodeD m).inputs).filterMap
          (entryF ((dp.getNodeD m).inputs.map
            (fun kv => (kv.1, if kv.1 == key then v2 else kv.2))) anc)) := by
  rw [zip_filterMap _ _ (sortedKeys (dp.getNodeD m).inputs) ?hagree]
  case hagree =>
    intro k _
    rw [entryF_isSome, entryF_isSome]
    by_cases hk : k = key
    · subst hk
      rw [hv, updateVals_lookup_eq _ _ v v2 hv]
      rfl
    · rw [updateVals_lookup_ne _ _ _ _ hk]
  apply List.mem_filterMap.2
  refine ⟨key, mem_sortedKeys_of_lookup _ _ v hv, ?_⟩
  have h1 : entryF (dp.getNodeD m).inputs anc key = some (.pytuple [.str key, v]) := by
    simp [entryF, hv, hlv]
  have h2 : entryF ((dp.getNodeD m).inputs.map
      (fun kv => (kv.1, if kv.1 == key then v2 else kv.2))) anc key
      = some (.pytuple [.str key, v2]) := by
    have hlook := updateVals_lookup_eq (dp.getNodeD m).inputs key v v2 hv
    simp only [entryF]
    rw [hlook]
    simp [hlv2]
  rw [h1, h2]
  rfl

/-- The changed node's immediate signature projects unequally before
and after the change, whenever the changed values' projections are
unequal. -/
theorem imm_sig_update_neq (dp : DynPrompt) (ch : String → PyVal) (m key : String)
    (v v2 : PyVal)
    (hv : lookupStr (dp.getNodeD m).inputs key = some v)
    (hlv : is_link v = false) (hlv2 : is_link v2 = false)
    (hne : ∀ g1 g2, pyEqH (to_hashable v g1).1 (to_hashable v2 g2).1 = false)
    (anc : List String) (gA gB : ℕ) :
    pyEqH (to_hashable (get_immediate_node_signature dp (fun _ => false) ch m anc) gA).1
      (to_hashable (get_immediate_node_signature (updateInput dp m key v2)
        (fun _ => false) ch m anc) gB).1 = false := by
  rw [Bool.eq_false_iff]
  intro h
  rw [imm_sig_eq_pylist, imm_sig_eq_pylist] at h
  rw [updateInput_getNodeD_eq dp m key v2] at h
  have hct : (⟨(dp.getNodeD m).class_type, (dp.getNodeD m).inputs.map
      (fun kv => (kv.1, if kv.1 == key then v2 else kv.2))⟩ : NodeRec).class_type
      = (dp.getNodeD m).class_type := rfl
  have hinp : (⟨(dp.getNodeD m).class_type, (dp.getNodeD m).inputs.map
      (fun kv => (kv.1, if kv.1 == key then v2 else kv.2))⟩ : NodeRec).inputs
      = (dp.getNodeD m).inputs.map (fun kv => (kv.1, if kv.1 == key then v2 else kv.2)) := rfl
  rw [hct, hinp, sortedKeys_map_keyed] at h
  obtain ⟨-, hpw⟩ := projList_eq_pointwise _ _ gA gB h
  have hmem := changed_entry_mem dp m key v v2 hv hlv hlv2 anc
  have hpair := hpw (.pytuple [.str key, v], .pytuple [.str key, v2]) ?hmem2
  case hmem2 =>
    rw [List.zip_append (by rfl)]
    exact List.mem_append_right _ hmem
  obtain ⟨g1, g2, hteq⟩ := hpair
  obtain ⟨-, hpt⟩ := projTuple_eq_pointwise [.str key, v] [.str key, v2] g1 g2 hteq
  obtain ⟨g3, g4, hveq⟩ := hpt (v, v2) (by simp)
  rw [hne g3 g4] at hveq
  exact absurd hveq (by simp)

/-- C2 (corrected): with `include_node_id_in_input` false and no class
marked `NOT_IDEMPOTENT`, `CacheKeySetInputSignature` is node-id
independent — an isomorphic copy of the graph under any injective id
renaming `φ` (same class types, literal inputs and topology) with the
changed markers carried over yields the very same signature for the
renamed node (first conjunct), and the very same stored data key when
the key set is built over the renamed ids (second conjunct).
Sensitivity to literals holds in the amended form (third conjunct):
changing one literal input of a node in `n`'s ancestry (or of `n`
itself) changes `n`'s data key whenever the hashable projections of the
old and new value differ — projections of genuinely different literals
can coincide, so the claim's unconditional form is false. -/
theorem input_signature_node_id_independent (φ : String → String)
    (hinj : Function.Injective φ) (dp : DynPrompt) (ch ch2 : String → PyVal)
    (hch : ∀ s, ch2 (φ s) = ch s) :
    (∀ n g, get_node_signature (renameGraph φ dp) (fun _ => false) ch2 (φ n) g
        = get_node_signature dp (fun _ => false) ch n g) ∧
    (∀ (ids : List String) (n : String) (g : ℕ),
      (mkCacheKeySet .byInputSig (renameGraph φ dp) (ids.map φ) ch2 (fun _ => false) g).1.get_data_key (φ n)
        = (mkCacheKeySet .byInputSig dp ids ch (fun _ => false) g).1.get_data_key n) ∧
    (∀ (m key n : String) (v v2 : PyVal) (g g2 : ℕ),
      lookupStr (dp.getNodeD m).inputs key = some v →
      is_link v = false → is_link v2 = false →
      (∀ g3 g4, pyEqH (to_hashable v g3).1 (to_hashable v2 g4).1 = false) →
      (m = n ∨ m ∈ get_ordered_ancestry dp n) →
      pyEqH (get_node_signature dp (fun _ => false) ch n g).1
        (get_node_signature (updateInput dp m key v2) (fun _ => false) ch n g2).1 = false) := by
  refine ⟨fun n g => node_signature_rename φ hinj dp ch ch2 hch n g, ?_, ?_⟩
  · intro ids n g
    obtain ⟨hkeys, -⟩ := add_keys_rename φ hinj dp ch ch2 hch ids [] [] [] g
    simp only [mkCacheKeySet, CacheKeySet.get_data_key]
    rw [show (List.map (fun p => (φ p.1, p.2)) ([] : List (String × HVal))) = [] from rfl] at hkeys
    rw [hkeys, lookupStr_map_rename φ hinj _ n]
  · intro m key n v v2 g g2 hv hlv hlv2 hne hreach
    rw [Bool.eq_false_iff]
    intro h
    simp only [get_node_signature] at h
    rw [ordered_ancestry_update dp m key v v2 hv hlv hlv2 n] at h
    obtain ⟨-, hpw⟩ := projList_eq_pointwise _ _ g g2 h
    have hpair : (get_immediate_node_signature dp (fun _ => false) ch m
          (get_ordered_ancestry dp n),
        get_immediate_node_signature (updateInput dp m key v2) (fun _ => false) ch m
          (get_ordered_ancestry dp n))
        ∈ (get_immediate_node_signature dp (fun _ => false) ch n (get_ordered_ancestry dp n) ::
            (get_ordered_ancestry dp n).map (fun a =>
              get_immediate_node_signature dp (fun _ => false) ch a (get_ordered_ancestry dp n))).zip
          (get_immediate_node_signature (updateInput dp m key v2) (fun _ => false) ch n
              (get_ordered_ancestry dp n) ::
            (get_ordered_ancestry dp n).map (fun a =>
              get_immediate_node_signature (updateInput dp m key v2) (fun _ => false) ch a
                (get_ordered_ancestry dp n))) := by
      rw [List.zip_cons_cons]
      rcases hreach with rfl | hm
      · exact List.mem_cons_self _ _
      · apply List.mem_cons_of_mem
        rw [List.zip_map']
        exact List.mem_map_of_mem _ hm
    obtain ⟨g3, g4, hsig⟩ := hpw _ hpair
    rw [imm_sig_update_neq dp ch m key v v2 hv hlv hlv2 hne
      (get_ordered_ancestry dp n) g3 g4] at hsig
    exact absurd hsig (by simp)

/-- C2 counterexample to unconditional literal sensitivity: in a
one-node graph, changing the literal input `x` from `{}` to `[]` is a
genuine value change (Python `==` distinguishes them), yet both project
to the empty frozenset, so the node's data key is bit-for-bit
unchanged. -/
theorem input_signature_literal_cex :
    pyEqV (PyVal.pydict []) (PyVal.pylist []) = false ∧
    is_link (PyVal.pydict []) = false ∧
    is_link (PyVal.pylist []) = false ∧
    lookupStr ((⟨[("A", ⟨"T", [("x", PyVal.pydict [])]⟩)], []⟩ : DynPrompt).getNodeD "A").inputs "x"
      = some (PyVal.pydict []) ∧
    get_node_signature
        (updateInput (⟨[("A", ⟨"T", [("x", PyVal.pydict [])]⟩)], []⟩ : DynPrompt) "A" "x" (PyVal.pylist []))
        (fun _ => false) (fun _ => PyVal.none) "A" 0
      = get_node_signature (⟨[("A", ⟨"T", [("x", PyVal.pydict [])]⟩)], []⟩ : DynPrompt)
        (fun _ => false) (fun _ => PyVal.none) "A" 0 := by
  refine ⟨by simp [pyEqV], rfl, rfl, rfl, ?_⟩
  simp [get_node_signature, get_ordered_ancestry, get_ordered_ancestry_internal,
    get_immediate_node_signature, updateInput, DynPrompt.getNodeD, DynPrompt.get_node,
    lookupStr, List.find?, sortedKeys, sortedItems, insertByKey, include_node_id_in_input,
    is_link, to_hashable, projSeq, projItems, fsetOf, fsetMem, pyEqH, strLt]

/-- Witness for C2's hypotheses at a concrete injective renaming
(prefixing ids with `"R"`) and the concrete graph `dpC2`: the renamed
graph gives node `A` the same signature, and changing `A`'s literal
`x` from `"a"` to `"b"` changes its data key. -/
theorem input_signature_node_id_independent_witness :
    Function.Injective (fun s : String => "R" ++ s) ∧
    ((fun _ => PyVal.none) : String → PyVal) = (fun _ => PyVal.none) ∧
    get_node_signature (renameGraph (fun s : String => "R" ++ s) dpC2) (fun _ => false)
        (fun _ => PyVal.none) ((fun s : String => "R" ++ s) "A") 0
      = get_node_signature dpC2 (fun _ => false) (fun _ => PyVal.none) "A" 0 ∧
    pyEqH (get_node_signature dpC2 (fun _ => false) (fun _ => PyVal.none) "A" 0).1
        (get_node_signature (updateInput dpC2 "A" "x" (PyVal.str "b")) (fun _ => false)
          (fun _ => PyVal.none) "A" 0).1 = false := by
  have hinj : Function.Injective (fun s : String => "R" ++ s) := by
    intro a b h
    have h2 := congrArg String.data h
    simp only [String.data_append] at h2
    exact String.ext (List.append_cancel_left h2)
  have hthm := input_signature_node_id_independent (fun s : String => "R" ++ s) hinj dpC2
    (fun _ => PyVal.none) (fun _ => PyVal.none) (fun _ => rfl)
  refine ⟨hinj, rfl, hthm.1 "A" 0, ?_⟩
  refine hthm.2.2 "A" "x" "A" (PyVal.str "a") (PyVal.str "b") 0 0 rfl rfl rfl ?_ (Or.inl rfl)
  intro g3 g4
  simp [to_hashable, pyEqH]

end ComfyUI
